import Mathlib

/-!
# redis-dump-repair: tokenizer and repairer

A shallow embedding of `tokenizer/token.go`, `tokenizer/tokenizer.go` and the
repair loop of `cmd/redis-dump-repair/main.go`, followed by theorems about them.

Conventions of the embedding:

* a Go `string` / `[]byte` is a `List Byte`, a byte being a natural number
  (every theorem holds for all naturals, hence for the values 0..255);
* the byte source is an in-memory reader: `ReadByte` either yields the next
  byte or fails with `io.EOF`, and `UnreadByte` directly after a successful
  `ReadByte` succeeds;
* the byte sink is an in-memory buffer whose `Write` never fails;
* `Tokenizer.Next` mutates its receiver: here it returns the new tokenizer
  next to its two results.
-/

namespace RedisDumpRepair

/-- One byte of a Go string. -/
abbrev Byte := Nat

/-! ## token.go -/

/-- Kind of a token (`type Kind uint`, constants `Invalid`, `String`, `Newline`, `EOF`). -/
inductive Kind where
  | Invalid
  | String
  | Newline
  | EOF
deriving DecidableEq, Repr

/-- Lexical unit (`type Token struct`). -/
structure Token where
  value : List Byte
  kind : Kind
deriving DecidableEq, Repr

/-- Package variable `invalidToken = Token{kind: Invalid}`. -/
def invalidToken : Token := { value := [], kind := Kind.Invalid }

/-- Package variable `newlineToken = Token{kind: Newline, value: "\n"}`. -/
def newlineToken : Token := { value := [10], kind := Kind.Newline }

/-- Package variable `eofToken = Token{kind: EOF}`. -/
def eofToken : Token := { value := [], kind := Kind.EOF }

/-- Method `Token.Value`: `none` stands for the panic on kinds `Invalid` and `EOF`. -/
def Token.Value (t : Token) : Option (List Byte) :=
  if t.kind = Kind.Invalid ∨ t.kind = Kind.EOF then none else some t.value

/-- Method `Token.Kind`. -/
def Token.Kind (t : Token) : Kind := t.kind

/-! ## tokenizer.go -/

/-- Error values the tokenizer can return: the sentinels `io.EOF` and
`io.ErrUnexpectedEOF`, and the errors built by `fmt.Errorf`, held by their message. -/
inductive Error where
  | EOF
  | ErrUnexpectedEOF
  | Errorf (msg : String)
deriving DecidableEq, Repr

/-- Verb `%d` of package fmt on an `int`. -/
def fmtD (n : Int) : String := toString n

/-- Verb `%x` of package fmt on a `byte`: lowercase hexadecimal, no padding. -/
def fmtX (ch : Byte) : String := String.mk (Nat.toDigits 16 ch)

/-- Error `fmt.Errorf("expected space or newline before string at position %d", p)`. -/
def errMissingSeparator (p : Int) : Error :=
  Error.Errorf ("expected space or newline before string at position " ++ fmtD p)

/-- Error `fmt.Errorf("unescaped backslash or invalid escape sequence at position %d", p)`. -/
def errInvalidEscape (p : Int) : Error :=
  Error.Errorf ("unescaped backslash or invalid escape sequence at position " ++ fmtD p)

/-- Error `fmt.Errorf("unexpected character 0x%x at position %d", ch, p)`. -/
def errUnexpectedCharacter (ch : Byte) (p : Int) : Error :=
  Error.Errorf ("unexpected character 0x" ++ fmtX ch ++ " at position " ++ fmtD p)

/-- Type `byteReader`: `pos` counts the bytes read (minus those unread); `reader`
is the underlying buffered reader, held as the bytes it has still to deliver. -/
structure byteReader where
  pos : Int
  reader : List Byte
deriving DecidableEq, Repr

/-- Method `byteReader.Read`: `none` is the error `io.EOF` of `ReadByte`. -/
def byteReader.Read (b : byteReader) : Option (Byte × byteReader) :=
  match b.reader with
  | [] => none
  | v :: rest => some (v, { pos := b.pos + 1, reader := rest })

/-- Method `byteReader.Unread`, called with the byte `v` that the preceding
successful `Read` returned: `UnreadByte` puts it back and `pos` is decremented. -/
def byteReader.Unread (b : byteReader) (v : Byte) : byteReader :=
  { pos := b.pos - 1, reader := v :: b.reader }

/-- Function `isUnquotedStringCharacter`. -/
def isUnquotedStringCharacter (ch : Byte) : Bool :=
  (decide (97 ≤ ch) && decide (ch ≤ 122)) ||
  (decide (65 ≤ ch) && decide (ch ≤ 90)) ||
  (decide (48 ≤ ch) && decide (ch ≤ 57)) ||
  decide (ch = 95) || decide (ch = 58) || decide (ch = 45)

/-- Type `Tokenizer`. -/
structure Tokenizer where
  reader : byteReader
  err : Option Error
  justReadString : Bool
deriving DecidableEq, Repr

/-- Function `New`, over an in-memory source holding `input`. -/
def New (input : List Byte) : Tokenizer :=
  { reader := { pos := 0, reader := input }, err := none, justReadString := false }

/-- What the body of `Next` hands back: the token, the error, and the reader. -/
structure Scanned where
  token : Token
  err : Option Error
  reader : byteReader
deriving DecidableEq, Repr

/-- Inner loop of the quoted-string branch of `Next` (tokenizer.go lines 70-94),
started with the string builder `sb`, the flag `escaping` and `pos` bytes read;
the last argument is what the reader has still to deliver, so that matching on
it is the call `t.reader.Read()`. -/
def readQuoted (sb : List Byte) (escaping : Bool) (pos : Int) : List Byte → Scanned
  | [] => { token := invalidToken, err := some Error.ErrUnexpectedEOF,
            reader := { pos := pos, reader := [] } }
  | ch :: rest =>
    if escaping then
      if ch = 92 ∨ ch = 39 then
        readQuoted (sb ++ [ch]) false (pos + 1) rest
      else
        { token := invalidToken, err := some (errInvalidEscape (pos + 1 - 2)),
          reader := { pos := pos + 1, reader := rest } }
    else if ch = 92 then
      readQuoted sb true (pos + 1) rest
    else if ch = 39 then
      { token := { value := sb, kind := Kind.String }, err := none,
        reader := { pos := pos + 1, reader := rest } }
    else
      readQuoted (sb ++ [ch]) false (pos + 1) rest

/-- Inner loop of the bare-string branch of `Next` (tokenizer.go lines 107-126). -/
def readBare (sb : List Byte) (pos : Int) : List Byte → Scanned
  | [] => { token := { value := sb, kind := Kind.String }, err := none,
            reader := { pos := pos, reader := [] } }
  | ch :: rest =>
    if isUnquotedStringCharacter ch then
      readBare (sb ++ [ch]) (pos + 1) rest
    else if ch = 32 ∨ ch = 10 then
      { token := { value := sb, kind := Kind.String }, err := none,
        reader := byteReader.Unread { pos := pos + 1, reader := rest } ch }
    else
      { token := invalidToken, err := some (errUnexpectedCharacter ch (pos + 1 - 1)),
        reader := { pos := pos + 1, reader := rest } }

/-- Outer loop of `Next` (tokenizer.go lines 45-129) with the fields
`justReadString` and `reader.pos` of the receiver as arguments and what the
reader has still to deliver as the last one. The tokenizer in the result holds
the fields as the loop leaves them; its `err` is set on the end-of-input path
only (line 49). -/
def scan (justReadString : Bool) (pos : Int) : List Byte → (Token × Option Error) × Tokenizer
  | [] => ((eofToken, none),
           { reader := { pos := pos, reader := [] }, err := some Error.EOF,
             justReadString := justReadString })
  | ch :: rest =>
    if ch = 32 then
      scan false (pos + 1) rest
    else if ch = 10 then
      ((newlineToken, none),
       { reader := { pos := pos + 1, reader := rest }, err := none, justReadString := false })
    else if ch = 39 then
      if justReadString then
        ((invalidToken, some (errMissingSeparator (pos + 1 - 1))),
         { reader := { pos := pos + 1, reader := rest }, err := none,
           justReadString := justReadString })
      else
        let r := readQuoted [] false (pos + 1) rest
        ((r.token, r.err), { reader := r.reader, err := none, justReadString := true })
    else if isUnquotedStringCharacter ch then
      if justReadString then
        ((invalidToken, some (errMissingSeparator (pos + 1))),
         { reader := { pos := pos + 1, reader := rest }, err := none,
           justReadString := justReadString })
      else
        let r := readBare [ch] (pos + 1) rest
        ((r.token, r.err), { reader := r.reader, err := none, justReadString := true })
    else
      ((invalidToken, some (errUnexpectedCharacter ch (pos + 1 - 1))),
       { reader := { pos := pos + 1, reader := rest }, err := none,
         justReadString := justReadString })

/-- Method `Tokenizer.Next`: the stored error is replayed (lines 35-37); otherwise
the loop runs and the deferred function stores a non-nil returned error (lines 39-43). -/
def Next (t : Tokenizer) : (Token × Option Error) × Tokenizer :=
  match t.err with
  | some e => ((invalidToken, some e), t)
  | none =>
    let r := scan t.justReadString t.reader.pos t.reader.reader
    match r.1.2 with
    | some e => (r.1, { r.2 with err := some e })
    | none => r

/-- The tokenizer after `n` calls to `Next`. -/
def afterCalls : Nat → Tokenizer → Tokenizer
  | 0, t => t
  | n + 1, t => afterCalls n (Next t).2

/-- Results (token and error) of the `n`-th call to `Next`, counting from 1, on `t`. -/
def nthCall (n : Nat) (t : Tokenizer) : Token × Option Error :=
  (Next (afterCalls (n - 1) t)).1

/-! ## Go standard library: what `fmt.Sprintf("%-8s", s)` does -/

/-- Table `first` of package `unicode/utf8` joined with `acceptRanges`: for a
leading byte of a multi-byte sequence, the size of the sequence and the lowest
and the highest second byte accepted; `none` for every other byte (ASCII or `xx`). -/
def first (c : Byte) : Option (Nat × Byte × Byte) :=
  if 194 ≤ c ∧ c ≤ 223 then some (2, 128, 191)
  else if c = 224 then some (3, 160, 191)
  else if 225 ≤ c ∧ c ≤ 236 then some (3, 128, 191)
  else if c = 237 then some (3, 128, 159)
  else if 238 ≤ c ∧ c ≤ 239 then some (3, 128, 191)
  else if c = 240 then some (4, 144, 191)
  else if 241 ≤ c ∧ c ≤ 243 then some (4, 128, 191)
  else if c = 244 then some (4, 128, 143)
  else none

/-- One pass of the loop body of `utf8.RuneCountInString` at the bytes `s[i:]`:
the number of bytes by which `i` advances (1 on ASCII and on invalid or short
sequences, else the size of the sequence). -/
def runeSize : List Byte → Nat
  | [] => 0
  | c :: rest =>
    if c < 128 then 1
    else
      match first c with
      | none => 1
      | some (size, lo, hi) =>
        if rest.length + 1 < size then 1
        else
          match rest with
          | [] => 1
          | c1 :: rest1 =>
            if c1 < lo ∨ hi < c1 then 1
            else if size = 2 then 2
            else
              match rest1 with
              | [] => 1
              | c2 :: rest2 =>
                if c2 < 128 ∨ 191 < c2 then 1
                else if size = 3 then 3
                else
                  match rest2 with
                  | [] => 1
                  | c3 :: _ => if c3 < 128 ∨ 191 < c3 then 1 else size

/-- Loop of `utf8.RuneCountInString`: `n` is incremented once per pass and `i`
advances by `runeSize`, which is held here as the number `skip` of bytes still
to step over before the next pass starts. -/
def runeCountFrom : Nat → List Byte → Nat
  | _, [] => 0
  | skip + 1, _ :: rest => runeCountFrom skip rest
  | 0, c :: rest => 1 + runeCountFrom (runeSize (c :: rest) - 1) rest

/-- Function `utf8.RuneCountInString`. -/
def RuneCountInString (s : List Byte) : Nat := runeCountFrom 0 s

/-- Method `writePadding` of `fmt` with the pad byte `' '`: nothing when `n <= 0`. -/
def writePadding (n : Int) : List Byte :=
  if n ≤ 0 then [] else List.replicate n.toNat 32

/-- Method `padString` of `fmt` for a width `wid` (present and non-zero): the
width is counted in runes; `minus` is the flag `-`. -/
def padString (wid : Int) (minus : Bool) (s : List Byte) : List Byte :=
  let width := wid - (RuneCountInString s : Int)
  if minus then s ++ writePadding width else writePadding width ++ s

/-- Call `fmt.Sprintf("%-8s", s)`. -/
def Sprintf_minus8s (s : List Byte) : List Byte := padString 8 true s

/-! ## cmd/redis-dump-repair/main.go -/

/-- Package variable `replacements` (a `map[byte]string`); `none` when the key is absent. -/
def replacements (ch : Byte) : Option (List Byte) :=
  if ch = 10 then some [92, 110]
  else if ch = 13 then some [92, 114]
  else if ch = 92 then some [92, 92]
  else if ch = 34 then some [92, 34]
  else if ch = 0 then some [92, 120, 48, 48]
  else none

/-- Argument branch of `Run` (main.go lines 61-70): the content of the string
builder when it is written, for a token value `value`. -/
def quoteArgument (value : List Byte) : List Byte :=
  (value.foldl
    (fun sb ch =>
      match replacements ch with
      | some replacement => sb ++ replacement
      | none => sb ++ [ch])
    [32, 34]) ++ [34]

/-- What one pass of the loop of `Run` does with a token that came without error. -/
inductive Action where
  | write (data : List Byte) (newline : Bool)
  | done
  | panicked
deriving DecidableEq, Repr

/-- Switch on the kind of the token in `Run` (main.go lines 49-85), for the
value `newline` of the line state: the bytes written to the output with the
new line state, or the end of the loop, or the panic of the default case
(also that of `Token.Value`). -/
def onToken (newline : Bool) (token : Token) : Action :=
  match token.Kind with
  | Kind.String =>
    match token.Value with
    | none => Action.panicked
    | some value =>
      if newline then Action.write (Sprintf_minus8s value) false
      else Action.write (quoteArgument value) newline
  | Kind.Newline =>
    match token.Value with
    | none => Action.panicked
    | some value => Action.write value true
  | Kind.EOF => Action.done
  | Kind.Invalid => Action.panicked

/-- How `Run` ends: normally, by `os.Exit(1)` after a tokenizer error, or by a panic. -/
inductive Exit where
  | success
  | parseError (e : Error)
  | panicked
deriving DecidableEq, Repr

/-- Loop of `Run` (main.go lines 41-86) for at most `fuel` calls to `Next`:
the bytes written to the output and how the run ended; `none` when `fuel`
calls did not end the loop. -/
def runLoop : Nat → Tokenizer → Bool → List Byte → Option (List Byte × Exit)
  | 0, _, _, _ => none
  | fuel + 1, parser, newline, output =>
    match Next parser with
    | ((_, some e), _) => some (output, Exit.parseError e)
    | ((token, none), parser) =>
      match onToken newline token with
      | Action.write data newline => runLoop fuel parser newline (output ++ data)
      | Action.done => some (output, Exit.success)
      | Action.panicked => some (output, Exit.panicked)

/-- Command `Run` on an input file holding `input`: the content of the output
file and how the run ended. The loop is given `len(input) + 1` calls to `Next`,
which always ends it (`runLoop_enough`). -/
def Run (input : List Byte) : Option (List Byte × Exit) :=
  runLoop (input.length + 1) (New input) true []

/-- Driving a tokenizer until it stops, for at most `fuel` calls to `Next`: the
tokens returned before the EOF token or the first error, and that error (`none`
when the EOF token ended the sequence); `none` when `fuel` calls did not reach
either. -/
def drive : Nat → Tokenizer → Option (List Token × Option Error)
  | 0, _ => none
  | fuel + 1, t =>
    match Next t with
    | ((_, some e), _) => some ([], some e)
    | ((token, none), t) =>
      if token.kind = Kind.EOF then some ([], none)
      else
        match drive fuel t with
        | none => none
        | some (tokens, e) => some (token :: tokens, e)

/-- Token sequence of `input`: a fresh tokenizer driven until it stops, with
`len(input) + 1` calls, which always suffice (`drive_enough`). -/
def tokenize (input : List Byte) : Option (List Token × Option Error) :=
  drive (input.length + 1) (New input)

/-- Bytes that the loop of `Run` writes for a sequence of tokens, from the line
state `newline`: the concatenation of what `onToken` writes for each. -/
def render : Bool → List Token → List Byte
  | _, [] => []
  | newline, token :: tokens =>
    match onToken newline token with
    | Action.write data newline => data ++ render newline tokens
    | Action.done => []
    | Action.panicked => []

/-- How `Run` ends on a token sequence that stopped with the error `e`. -/
def exitOf : Option Error → Exit
  | none => Exit.success
  | some e => Exit.parseError e

/-- Bytes (UTF-8) of the text of a Go string literal. -/
def bytes (s : String) : List Byte :=
  s.data.flatMap (fun c => (String.utf8EncodeChar c).map UInt8.toNat)

/-- Written form `q(v)` of the content of a quoted string with value `v`: a
backslash is inserted before every backslash and every single quote. -/
def quoteEscape : List Byte → List Byte
  | [] => []
  | ch :: v =>
    if ch = 92 ∨ ch = 39 then 92 :: ch :: quoteEscape v else ch :: quoteEscape v

/-- Bytes that `quoteArgument` puts between the two double quotes: every byte
replaced by its entry in `replacements`, or copied when it has none. -/
def escapeValue (value : List Byte) : List Byte :=
  value.flatMap (fun ch => (replacements ch).getD [ch])

/-- Whether `region` parses completely as a sequence of units, a unit being one
byte other than newline, carriage return, backslash, double quote and null, or
one of the escape sequences `\n`, `\r`, `\\`, `\"`, `\x00`. -/
def wellEscaped : List Byte → Bool
  | [] => true
  | ch :: rest =>
    if ch = 92 then
      match rest with
      | [] => false
      | e :: rest2 =>
        if e = 110 ∨ e = 114 ∨ e = 92 ∨ e = 34 then wellEscaped rest2
        else if e = 120 then
          match rest2 with
          | a :: b :: rest3 => if a = 48 ∧ b = 48 then wellEscaped rest3 else false
          | _ => false
        else false
    else if ch = 10 ∨ ch = 13 ∨ ch = 34 ∨ ch = 0 then false
    else wellEscaped rest

/-- What may follow a bare string: the end of the input, a space or a newline. -/
def atSeparator : List Byte → Bool
  | [] => true
  | ch :: _ => decide (ch = 32) || decide (ch = 10)

/-- An argument of a line as the input writes it: a bare string, or a quoted
string given by its value. -/
inductive Argument where
  | bare (r : List Byte)
  | quoted (v : List Byte)
deriving DecidableEq, Repr

/-- Value of an argument. -/
def Argument.value : Argument → List Byte
  | Argument.bare r => r
  | Argument.quoted v => v

/-- Bytes of an argument in the input: the run itself, or the escaped value
between single quotes. -/
def Argument.text : Argument → List Byte
  | Argument.bare r => r
  | Argument.quoted v => 39 :: (quoteEscape v ++ [39])

/-- Whether a byte is one that `replacements` rewrites: newline, carriage
return, backslash, double quote or null. -/
def isReplaced (ch : Byte) : Bool :=
  decide (ch = 10) || decide (ch = 13) || decide (ch = 92) || decide (ch = 34) || decide (ch = 0)

/-- Arguments that C5 speaks of: a non-empty run of bare-string characters, or a
quoted string whose value holds no byte that `replacements` rewrites. -/
def Argument.plain : Argument → Bool
  | Argument.bare r => !r.isEmpty && r.all isUnquotedStringCharacter
  | Argument.quoted v => v.all (fun ch => !isReplaced ch)

/-- String token holding `value`. -/
def stringToken (value : List Byte) : Token := { value := value, kind := Kind.String }

/-- Values of the String tokens that the loop of `Run` receives at the start of
a line, from the line state `newline`: the state is true after a Newline token
and false after a String token. -/
def commandValues : Bool → List Token → List (List Byte)
  | _, [] => []
  | newline, token :: tokens =>
    match token.kind with
    | Kind.String =>
      if newline then token.value :: commandValues false tokens
      else commandValues false tokens
    | Kind.Newline => commandValues true tokens
    | _ => commandValues newline tokens

/-- Number of Newline tokens in a token sequence. -/
def newlineTokens (tokens : List Token) : Nat :=
  tokens.countP (fun token => decide (token.kind = Kind.Newline))

/-- Bytes of an input that consists solely of bare strings, spaces and newlines. -/
def isBareInputByte (ch : Byte) : Bool :=
  isUnquotedStringCharacter ch || decide (ch = 32) || decide (ch = 10)

/-- Whether every line of a token sequence holds at most one String token, from
the line state `newline`: no String token arrives when the state is false. -/
def oneStringPerLine : Bool → List Token → Bool
  | _, [] => true
  | newline, token :: tokens =>
    match token.kind with
    | Kind.String => newline && oneStringPerLine false tokens
    | Kind.Newline => oneStringPerLine true tokens
    | _ => oneStringPerLine newline tokens

/-- Tokens that an input of bare strings, spaces and newlines gives: a String
token whose value is made of bare-string characters, or the Newline token. -/
def Token.isBare (token : Token) : Prop :=
  (token.kind = Kind.String ∧ ∀ ch ∈ token.value, isUnquotedStringCharacter ch = true) ∨
    token = newlineToken

/-- Outcomes of the loops of `Next` on `n` remaining bytes: an error with the
Invalid token, or a String token with at most `n` bytes left unread. -/
def Scanned.good (r : Scanned) (n : Nat) : Prop :=
  (∃ e, r.err = some e ∧ r.token = invalidToken) ∨
    (r.err = none ∧ r.token.kind = Kind.String ∧ r.reader.reader.length ≤ n)

/-- Outcomes of a call to `Next`, for `n` bytes unread before it: an error with
the Invalid token, stored in the tokenizer; the EOF token, with `io.EOF` stored;
or a String or Newline token, with no error stored and fewer bytes unread, the
flag `justReadString` being set exactly after a String token. -/
def NextOutcome (r : (Token × Option Error) × Tokenizer) (n : Nat) : Prop :=
  (∃ e, r.1.2 = some e ∧ r.1.1 = invalidToken ∧ r.2.err = some e) ∨
    (r.1.2 = none ∧ r.1.1 = eofToken ∧ r.2.err = some Error.EOF) ∨
    (r.1.2 = none ∧ r.2.err = none ∧ r.2.reader.reader.length < n ∧
      ((r.1.1.kind = Kind.String ∧ r.2.justReadString = true) ∨
        (r.1.1 = newlineToken ∧ r.2.justReadString = false)))

/-- Same outcomes for the loop of `Next` before the deferred function has run. -/
def ScanOutcome (r : (Token × Option Error) × Tokenizer) (n : Nat) : Prop :=
  (∃ e, r.1.2 = some e ∧ r.1.1 = invalidToken ∧ r.2.err = none) ∨
    (r.1.2 = none ∧ r.1.1 = eofToken ∧ r.2.err = some Error.EOF) ∨
    (r.1.2 = none ∧ r.2.err = none ∧ r.2.reader.reader.length < n ∧
      ((r.1.1.kind = Kind.String ∧ r.2.justReadString = true) ∨
        (r.1.1 = newlineToken ∧ r.2.justReadString = false)))

/-- Outcomes of a call to `Next` on bare strings, spaces and newlines. -/
def BareOutcome (r : (Token × Option Error) × Tokenizer) (n : Nat) : Prop :=
  r.1.2 = none ∧
    (r.1.1 = eofToken ∨
      (r.1.1.isBare ∧ r.2.err = none ∧ r.2.reader.reader.length < n ∧
        (∀ ch ∈ r.2.reader.reader, isBareInputByte ch = true) ∧
        (r.2.justReadString = true → atSeparator r.2.reader.reader = true)))

/-- The reader `b` is what the reader at `pos` bytes read, with `rest` still to
deliver, becomes by reading some bytes of `rest`: `pos` has grown by their number. -/
def Consumed (pos : Int) (rest : List Byte) (b : byteReader) : Prop :=
  ∃ consumed : List Byte, rest = consumed ++ b.reader ∧ b.pos = pos + consumed.length

/-- Decoder for the bytes that `quoteArgument` puts between the double quotes: a
backslash and the byte after it (`n`, `r`, backslash, double quote, or `x`
with two more bytes) give back the byte that `replacements` rewrote, and every
other byte is copied. -/
def unescapeValue : List Byte → List Byte
  | [] => []
  | ch :: rest =>
    if ch = 92 then
      match rest with
      | [] => []
      | e :: rest2 =>
        if e = 110 then 10 :: unescapeValue rest2
        else if e = 114 then 13 :: unescapeValue rest2
        else if e = 92 then 92 :: unescapeValue rest2
        else if e = 34 then 34 :: unescapeValue rest2
        else
          match rest2 with
          | _ :: _ :: rest3 => 0 :: unescapeValue rest3
          | _ => []
    else ch :: unescapeValue rest

/-- Bytes of an argument-free dump: bare-string characters and newlines. -/
def isLineByte (ch : Byte) : Bool :=
  isUnquotedStringCharacter ch || decide (ch = 10)

/-- Token sequences of argument-free dumps, from the line state `newline`: every
String token holds a non-empty run of bare-string characters and arrives at
the start of a line, and every other token is the Newline token. -/
def commandLines : Bool → List Token → Bool
  | _, [] => true
  | newline, token :: tokens =>
    match token.kind with
    | Kind.String =>
      newline && !token.value.isEmpty && token.value.all isUnquotedStringCharacter &&
        commandLines false tokens
    | Kind.Newline => decide (token = newlineToken) && commandLines true tokens
    | _ => false

/-! ## Lemmas on the tokenizer -/

theorem readQuoted_cons (sb : List Byte) (escaping : Bool) (pos : Int) (ch : Byte)
    (rest : List Byte) :
    readQuoted sb escaping pos (ch :: rest) =
      if escaping then
        if ch = 92 ∨ ch = 39 then
          readQuoted (sb ++ [ch]) false (pos + 1) rest
        else
          { token := invalidToken, err := some (errInvalidEscape (pos + 1 - 2)),
            reader := { pos := pos + 1, reader := rest } }
      else if ch = 92 then
        readQuoted sb true (pos + 1) rest
      else if ch = 39 then
        { token := { value := sb, kind := Kind.String }, err := none,
          reader := { pos := pos + 1, reader := rest } }
      else
        readQuoted (sb ++ [ch]) false (pos + 1) rest := rfl

theorem readQuoted_quoteEscape (v : List Byte) :
    ∀ (sb : List Byte) (pos : Int) (rest : List Byte),
      readQuoted sb false pos (quoteEscape v ++ 39 :: rest) =
        { token := { value := sb ++ v, kind := Kind.String }, err := none,
          reader := { pos := pos + (quoteEscape v).length + 1, reader := rest } } := by
  induction v with
  | nil => intro sb pos rest; simp [quoteEscape, readQuoted_cons]
  | cons ch v ih =>
    intro sb pos rest
    by_cases h : ch = 92 ∨ ch = 39
    · have h2 : quoteEscape (ch :: v) = 92 :: ch :: quoteEscape v := by simp [quoteEscape, h]
      rw [h2, List.cons_append, List.cons_append]
      simp only [readQuoted_cons, if_true, if_pos h, Bool.false_eq_true, if_false]
      rw [ih]
      simp only [List.append_assoc, List.singleton_append, List.length_cons, Nat.cast_add,
        Nat.cast_one]
      congr 2
      omega
    · have h2 : quoteEscape (ch :: v) = ch :: quoteEscape v := by simp [quoteEscape, h]
      have h92 : ¬ ch = 92 := fun e => h (Or.inl e)
      have h39 : ¬ ch = 39 := fun e => h (Or.inr e)
      rw [h2, List.cons_append, readQuoted_cons]
      simp only [Bool.false_eq_true, if_false, if_neg h92, if_neg h39]
      rw [ih]
      simp only [List.append_assoc, List.singleton_append, List.length_cons, Nat.cast_add,
        Nat.cast_one]
      congr 2
      omega

theorem readBare_cons (sb : List Byte) (pos : Int) (ch : Byte) (rest : List Byte) :
    readBare sb pos (ch :: rest) =
      if isUnquotedStringCharacter ch then
        readBare (sb ++ [ch]) (pos + 1) rest
      else if ch = 32 ∨ ch = 10 then
        { token := { value := sb, kind := Kind.String }, err := none,
          reader := byteReader.Unread { pos := pos + 1, reader := rest } ch }
      else
        { token := invalidToken, err := some (errUnexpectedCharacter ch (pos + 1 - 1)),
          reader := { pos := pos + 1, reader := rest } } := rfl

theorem Unread_after_Read (pos : Int) (ch : Byte) (rest : List Byte) :
    byteReader.Unread { pos := pos + 1, reader := rest } ch =
      { pos := pos, reader := ch :: rest } := by
  simp [byteReader.Unread]

theorem bare_iff (ch : Nat) :
    isUnquotedStringCharacter ch = true ↔
      (97 ≤ ch ∧ ch ≤ 122) ∨ (65 ≤ ch ∧ ch ≤ 90) ∨ (48 ≤ ch ∧ ch ≤ 57) ∨
        ch = 95 ∨ ch = 58 ∨ ch = 45 := by
  simp [isUnquotedStringCharacter, or_assoc]

theorem not_bare_space : isUnquotedStringCharacter 32 = false := by decide

theorem not_bare_newline : isUnquotedStringCharacter 10 = false := by decide

theorem readBare_run (r : List Byte) :
    ∀ (sb : List Byte) (pos : Int) (tail : List Byte),
      (∀ ch ∈ r, isUnquotedStringCharacter ch = true) → atSeparator tail = true →
      readBare sb pos (r ++ tail) =
        { token := { value := sb ++ r, kind := Kind.String }, err := none,
          reader := { pos := pos + r.length, reader := tail } } := by
  induction r with
  | nil =>
    intro sb pos tail _ ht
    cases tail with
    | nil => simp [readBare]
    | cons c tl =>
      have hc : c = 32 ∨ c = 10 := by simpa [atSeparator] using ht
      have hb : isUnquotedStringCharacter c = false := by
        rcases hc with h | h <;> subst h <;> decide
      simp [readBare_cons, hb, hc, Unread_after_Read]
  | cons ch r ih =>
    intro sb pos tail hr ht
    have hch : isUnquotedStringCharacter ch = true := hr ch (List.mem_cons_self _ _)
    have hr2 : ∀ c ∈ r, isUnquotedStringCharacter c = true :=
      fun c hc => hr c (List.mem_cons_of_mem _ hc)
    rw [List.cons_append, readBare_cons, if_pos hch, ih _ _ _ hr2 ht]
    simp only [List.append_assoc, List.singleton_append, List.length_cons, Nat.cast_add,
      Nat.cast_one]
    congr 2
    omega

theorem scan_cons (j : Bool) (pos : Int) (ch : Byte) (rest : List Byte) :
    scan j pos (ch :: rest) =
      if ch = 32 then
        scan false (pos + 1) rest
      else if ch = 10 then
        ((newlineToken, none),
         { reader := { pos := pos + 1, reader := rest }, err := none, justReadString := false })
      else if ch = 39 then
        if j then
          ((invalidToken, some (errMissingSeparator (pos + 1 - 1))),
           { reader := { pos := pos + 1, reader := rest }, err := none, justReadString := j })
        else
          (((readQuoted [] false (pos + 1) rest).token, (readQuoted [] false (pos + 1) rest).err),
           { reader := (readQuoted [] false (pos + 1) rest).reader, err := none,
             justReadString := true })
      else if isUnquotedStringCharacter ch then
        if j then
          ((invalidToken, some (errMissingSeparator (pos + 1))),
           { reader := { pos := pos + 1, reader := rest }, err := none, justReadString := j })
        else
          (((readBare [ch] (pos + 1) rest).token, (readBare [ch] (pos + 1) rest).err),
           { reader := (readBare [ch] (pos + 1) rest).reader, err := none,
             justReadString := true })
      else
        ((invalidToken, some (errUnexpectedCharacter ch (pos + 1 - 1))),
         { reader := { pos := pos + 1, reader := rest }, err := none, justReadString := j }) :=
  rfl

theorem bare_ne (ch : Nat) (h : isUnquotedStringCharacter ch = true) :
    ch ≠ 32 ∧ ch ≠ 10 ∧ ch ≠ 39 ∧ ch ≠ 92 ∧ ch ≠ 34 ∧ ch ≠ 13 ∧ ch ≠ 0 := by
  rw [bare_iff] at h
  omega

theorem bare_lt (ch : Nat) (h : isUnquotedStringCharacter ch = true) : ch < 128 := by
  rw [bare_iff] at h
  omega

theorem scan_bare (ch : Byte) (r tail : List Byte) (pos : Int)
    (hch : isUnquotedStringCharacter ch = true)
    (hr : ∀ c ∈ r, isUnquotedStringCharacter c = true) (ht : atSeparator tail = true) :
    scan false pos (ch :: r ++ tail) =
      (({ value := ch :: r, kind := Kind.String }, none),
       { reader := { pos := pos + (r.length + 1 : Nat), reader := tail }, err := none,
         justReadString := true }) := by
  obtain ⟨h32, h10, h39, -⟩ := bare_ne ch hch
  rw [List.cons_append, scan_cons, if_neg h32, if_neg h10, if_neg h39, if_pos hch,
    readBare_run r _ _ _ hr ht]
  simp only [Bool.false_eq_true, if_false, List.singleton_append, Nat.cast_add, Nat.cast_one]
  congr 3
  omega

theorem Next_of_err_none (t : Tokenizer) (h : t.err = none) :
    Next t =
      match (scan t.justReadString t.reader.pos t.reader.reader).1.2 with
      | some e => ((scan t.justReadString t.reader.pos t.reader.reader).1,
          { (scan t.justReadString t.reader.pos t.reader.reader).2 with err := some e })
      | none => scan t.justReadString t.reader.pos t.reader.reader := by
  simp [Next, h]

theorem readQuoted_good (rest : List Byte) :
    ∀ (sb : List Byte) (escaping : Bool) (pos : Int),
      (readQuoted sb escaping pos rest).good rest.length := by
  induction rest with
  | nil => intro sb escaping pos; left; exact ⟨_, rfl, rfl⟩
  | cons ch rest ih =>
    intro sb escaping pos
    have step : ∀ sb2 e2 p2, (readQuoted sb2 e2 p2 rest).good (ch :: rest).length := by
      intro sb2 e2 p2
      rcases ih sb2 e2 p2 with h | ⟨h1, h2, h3⟩
      · exact Or.inl h
      · exact Or.inr ⟨h1, h2, by simp only [List.length_cons]; omega⟩
    rw [readQuoted_cons]
    split
    · split
      · exact step _ _ _
      · left; exact ⟨_, rfl, rfl⟩
    · split
      · exact step _ _ _
      · split
        · right; exact ⟨rfl, rfl, by simp⟩
        · exact step _ _ _

theorem readBare_good (rest : List Byte) :
    ∀ (sb : List Byte) (pos : Int), (readBare sb pos rest).good rest.length := by
  induction rest with
  | nil => intro sb pos; right; exact ⟨rfl, rfl, by simp [readBare]⟩
  | cons ch rest ih =>
    intro sb pos
    rw [readBare_cons]
    split
    · rcases ih (sb ++ [ch]) (pos + 1) with h | ⟨h1, h2, h3⟩
      · exact Or.inl h
      · exact Or.inr ⟨h1, h2, by simp only [List.length_cons]; omega⟩
    · split
      · right; exact ⟨rfl, rfl, by simp [byteReader.Unread]⟩
      · left; exact ⟨_, rfl, rfl⟩

theorem scan_outcome (rest : List Byte) :
    ∀ (j : Bool) (pos : Int), ScanOutcome (scan j pos rest) rest.length := by
  induction rest with
  | nil => intro j pos; right; left; exact ⟨rfl, rfl, rfl⟩
  | cons ch rest ih =>
    intro j pos
    rw [scan_cons]
    split
    · rcases ih false (pos + 1) with h | h | ⟨h1, h2, h3, h4⟩
      · exact Or.inl h
      · exact Or.inr (Or.inl h)
      · exact Or.inr (Or.inr ⟨h1, h2, by simp only [List.length_cons]; omega, h4⟩)
    · split
      · right; right; exact ⟨rfl, rfl, by simp, Or.inr ⟨rfl, rfl⟩⟩
      · split
        · split
          · left; exact ⟨_, rfl, rfl, rfl⟩
          · rcases readQuoted_good rest [] false (pos + 1) with ⟨e, h1, h2⟩ | ⟨h1, h2, h3⟩
            · left; exact ⟨e, h1, h2, rfl⟩
            · right; right
              exact ⟨h1, rfl, by simp only [List.length_cons]; omega, Or.inl ⟨h2, rfl⟩⟩
        · split
          · split
            · left; exact ⟨_, rfl, rfl, rfl⟩
            · rcases readBare_good rest [ch] (pos + 1) with ⟨e, h1, h2⟩ | ⟨h1, h2, h3⟩
              · left; exact ⟨e, h1, h2, rfl⟩
              · right; right
                exact ⟨h1, rfl, by simp only [List.length_cons]; omega, Or.inl ⟨h2, rfl⟩⟩
          · left; exact ⟨_, rfl, rfl, rfl⟩

theorem Next_of_err_some (t : Tokenizer) (e : Error) (h : t.err = some e) :
    Next t = ((invalidToken, some e), t) := by
  simp [Next, h]

theorem Next_outcome (t : Tokenizer) : NextOutcome (Next t) t.reader.reader.length := by
  cases h : t.err with
  | some e =>
    rw [Next_of_err_some t e h]
    left; exact ⟨e, rfl, rfl, h⟩
  | none =>
    rw [Next_of_err_none t h]
    rcases scan_outcome t.reader.reader t.justReadString t.reader.pos with
      ⟨e, h1, h2, h3⟩ | ⟨h1, h2, h3⟩ | ⟨h1, h2, h3, h4⟩
    · rw [h1]; left; exact ⟨e, h1, h2, rfl⟩
    · rw [h1]; right; left; exact ⟨h1, h2, h3⟩
    · rw [h1]; right; right; exact ⟨h1, h2, h3, h4⟩

/-! ## Lemmas on the repairer -/

theorem runeCountFrom_le (s : List Byte) : ∀ skip, runeCountFrom skip s ≤ s.length := by
  induction s with
  | nil => intro skip; cases skip <;> simp [runeCountFrom]
  | cons c rest ih =>
    intro skip
    cases skip with
    | zero =>
      have := ih (runeSize (c :: rest) - 1)
      simp only [runeCountFrom, List.length_cons]
      omega
    | succ k =>
      have := ih k
      simp only [runeCountFrom, List.length_cons]
      omega

theorem runeCountFrom_ascii (s : List Byte) (h : ∀ ch ∈ s, ch < 128) :
    runeCountFrom 0 s = s.length := by
  induction s with
  | nil => simp [runeCountFrom]
  | cons c rest ih =>
    have hc : c < 128 := h c (List.mem_cons_self _ _)
    have hr : ∀ ch ∈ rest, ch < 128 := fun ch hch => h ch (List.mem_cons_of_mem _ hch)
    simp only [runeCountFrom, runeSize, if_pos hc, Nat.sub_self, ih hr, List.length_cons]
    omega

theorem Sprintf_minus8s_eq (s : List Byte) :
    Sprintf_minus8s s = s ++ List.replicate (8 - RuneCountInString s) 32 := by
  unfold Sprintf_minus8s padString writePadding
  simp only [if_true]
  split
  · rename_i h
    have : 8 - RuneCountInString s = 0 := by omega
    simp [this]
  · rename_i h
    have : ((8 : Int) - (RuneCountInString s : Int)).toNat = 8 - RuneCountInString s := by
      omega
    rw [this]

theorem foldl_replacements (value : List Byte) :
    ∀ sb : List Byte,
      value.foldl
        (fun sb ch =>
          match replacements ch with
          | some replacement => sb ++ replacement
          | none => sb ++ [ch]) sb = sb ++ escapeValue value := by
  induction value with
  | nil => intro sb; simp [escapeValue]
  | cons ch value ih =>
    intro sb
    rw [List.foldl_cons, ih]
    cases h : replacements ch <;> simp [escapeValue, h]

theorem quoteArgument_eq (value : List Byte) :
    quoteArgument value = [32, 34] ++ escapeValue value ++ [34] := by
  simp [quoteArgument, foldl_replacements]

theorem escapeValue_cons (ch : Byte) (value : List Byte) :
    escapeValue (ch :: value) = (replacements ch).getD [ch] ++ escapeValue value := by
  simp [escapeValue]

theorem wellEscaped_escape2 (e : Byte) (rest : List Byte)
    (h : e = 110 ∨ e = 114 ∨ e = 92 ∨ e = 34) :
    wellEscaped (92 :: e :: rest) = wellEscaped rest := by
  rw [wellEscaped.eq_def]
  simp [h]

theorem wellEscaped_escape4 (rest : List Byte) :
    wellEscaped (92 :: 120 :: 48 :: 48 :: rest) = wellEscaped rest := by
  rw [wellEscaped.eq_def]
  simp

theorem wellEscaped_plain (ch : Byte) (rest : List Byte) (h92 : ch ≠ 92)
    (h : ¬ (ch = 10 ∨ ch = 13 ∨ ch = 34 ∨ ch = 0)) :
    wellEscaped (ch :: rest) = wellEscaped rest := by
  rw [wellEscaped.eq_def]
  simp [h92, h]

theorem wellEscaped_escapeValue (value : List Byte) : wellEscaped (escapeValue value) = true := by
  induction value with
  | nil => simp [escapeValue, wellEscaped]
  | cons ch value ih =>
    rw [escapeValue_cons]
    by_cases h10 : ch = 10
    · subst h10
      simpa [replacements, wellEscaped_escape2] using ih
    by_cases h13 : ch = 13
    · subst h13
      simpa [replacements, wellEscaped_escape2] using ih
    by_cases h92 : ch = 92
    · subst h92
      simpa [replacements, wellEscaped_escape2] using ih
    by_cases h34 : ch = 34
    · subst h34
      simpa [replacements, wellEscaped_escape2] using ih
    by_cases h0 : ch = 0
    · subst h0
      simpa [replacements, wellEscaped_escape4] using ih
    have hp : wellEscaped (ch :: escapeValue value) = wellEscaped (escapeValue value) :=
      wellEscaped_plain ch _ h92 (by simp [h10, h13, h34, h0])
    simpa [replacements, h10, h13, h92, h34, h0, hp] using ih

theorem not_mem_escapeValue (value : List Byte) :
    10 ∉ escapeValue value ∧ 13 ∉ escapeValue value ∧ 0 ∉ escapeValue value := by
  induction value with
  | nil => simp [escapeValue]
  | cons ch value ih =>
    rw [escapeValue_cons]
    obtain ⟨i1, i2, i3⟩ := ih
    by_cases h10 : ch = 10
    · subst h10; simp [replacements, i1, i2, i3]
    by_cases h13 : ch = 13
    · subst h13; simp [replacements, i1, i2, i3]
    by_cases h92 : ch = 92
    · subst h92; simp [replacements, i1, i2, i3]
    by_cases h34 : ch = 34
    · subst h34; simp [replacements, i1, i2, i3]
    by_cases h0 : ch = 0
    · subst h0; simp [replacements, i1, i2, i3]
    simp only [replacements, h10, h13, h92, h34, h0, if_false, Option.getD_none,
      List.singleton_append, List.mem_cons, not_or]
    exact ⟨⟨fun e => h10 e.symm, i1⟩, ⟨fun e => h13 e.symm, i2⟩, ⟨fun e => h0 e.symm, i3⟩⟩

/-! ## Lemmas on driving the tokenizer and on the loop of `Run` -/

theorem drive_succ (fuel : Nat) (t : Tokenizer) :
    drive (fuel + 1) t =
      match Next t with
      | ((_, some e), _) => some ([], some e)
      | ((token, none), t) =>
        if token.kind = Kind.EOF then some ([], none)
        else
          match drive fuel t with
          | none => none
          | some (tokens, e) => some (token :: tokens, e) := rfl

theorem runLoop_succ (fuel : Nat) (parser : Tokenizer) (newline : Bool) (output : List Byte) :
    runLoop (fuel + 1) parser newline output =
      match Next parser with
      | ((_, some e), _) => some (output, Exit.parseError e)
      | ((token, none), parser) =>
        match onToken newline token with
        | Action.write data newline => runLoop fuel parser newline (output ++ data)
        | Action.done => some (output, Exit.success)
        | Action.panicked => some (output, Exit.panicked) := rfl

theorem drive_error (fuel : Nat) (t t2 : Tokenizer) (token : Token) (e : Error)
    (h : Next t = ((token, some e), t2)) : drive (fuel + 1) t = some ([], some e) := by
  rw [drive_succ, h]

theorem drive_eof (fuel : Nat) (t t2 : Tokenizer) (h : Next t = ((eofToken, none), t2)) :
    drive (fuel + 1) t = some ([], none) := by
  rw [drive_succ, h]
  simp [eofToken]

theorem drive_token (fuel : Nat) (t t2 : Tokenizer) (token : Token)
    (h : Next t = ((token, none), t2)) (hk : token.kind ≠ Kind.EOF) :
    drive (fuel + 1) t =
      match drive fuel t2 with
      | none => none
      | some (tokens, e) => some (token :: tokens, e) := by
  rw [drive_succ, h]
  simp [hk]

theorem drive_enough (fuel : Nat) :
    ∀ t : Tokenizer, t.reader.reader.length < fuel → ∃ r, drive fuel t = some r := by
  induction fuel with
  | zero => intro t h; omega
  | succ fuel ih =>
    intro t hlen
    rcases hN : Next t with ⟨⟨token, err⟩, t2⟩
    have ho := Next_outcome t
    rw [hN] at ho
    rcases ho with ⟨e, h1, -, -⟩ | ⟨h1, h2, -⟩ | ⟨h1, -, h3, h4⟩
    · simp only at h1
      subst h1
      exact ⟨_, drive_error fuel t t2 token e hN⟩
    · simp only at h1 h2
      subst h1 h2
      exact ⟨_, drive_eof fuel t t2 hN⟩
    · simp only at h1 h3 h4
      subst h1
      have hk : token.kind ≠ Kind.EOF := by
        rcases h4 with ⟨h, -⟩ | ⟨h, -⟩
        · rw [h]; decide
        · rw [h]; decide
      obtain ⟨⟨tokens, e⟩, hr⟩ := ih t2 (by omega)
      exact ⟨_, by rw [drive_token fuel t t2 token hN hk, hr]⟩

theorem drive_mono (fuel : Nat) :
    ∀ (t : Tokenizer) (r : List Token × Option Error),
      drive fuel t = some r → drive (fuel + 1) t = some r := by
  induction fuel with
  | zero => intro t r h; simp [drive] at h
  | succ fuel ih =>
    intro t r h
    rcases hN : Next t with ⟨⟨token, err⟩, t2⟩
    cases err with
    | some e =>
      rw [drive_error fuel t t2 token e hN] at h
      rw [drive_error (fuel + 1) t t2 token e hN, h]
    | none =>
      by_cases hk : token.kind = Kind.EOF
      · rw [drive_succ, hN] at h
        rw [drive_succ, hN]
        simpa [hk] using h
      · rw [drive_token fuel t t2 token hN hk] at h
        rw [drive_token (fuel + 1) t t2 token hN hk]
        cases hd : drive fuel t2 with
        | none => rw [hd] at h; simp at h
        | some r2 =>
          rw [hd] at h
          rw [ih t2 r2 hd]
          exact h

theorem drive_mono_add (k fuel : Nat) (t : Tokenizer) (r : List Token × Option Error)
    (h : drive fuel t = some r) : drive (fuel + k) t = some r := by
  induction k with
  | zero => exact h
  | succ k ih => exact drive_mono (fuel + k) t r ih

theorem drive_unique (f1 f2 : Nat) (t : Tokenizer) (r1 r2 : List Token × Option Error)
    (h1 : drive f1 t = some r1) (h2 : drive f2 t = some r2) : r1 = r2 := by
  have a := drive_mono_add f2 f1 t r1 h1
  have b := drive_mono_add f1 f2 t r2 h2
  rw [Nat.add_comm] at b
  rw [a] at b
  exact Option.some.inj b

theorem tokenize_of_drive (fuel : Nat) (input : List Byte) (r : List Token × Option Error)
    (h : drive fuel (New input) = some r) : tokenize input = some r := by
  obtain ⟨r2, h2⟩ := drive_enough (input.length + 1) (New input) (by simp [New])
  have := drive_unique _ _ _ _ _ h h2
  rw [tokenize, h2, this]

theorem onToken_String (newline : Bool) (token : Token) (h : token.kind = Kind.String) :
    onToken newline token =
      if newline then Action.write (Sprintf_minus8s token.value) false
      else Action.write (quoteArgument token.value) newline := by
  simp [onToken, Token.Kind, Token.Value, h]

theorem onToken_newlineToken (newline : Bool) :
    onToken newline newlineToken = Action.write [10] true := by
  simp [onToken, Token.Kind, Token.Value, newlineToken]

theorem runLoop_eq_drive (fuel : Nat) :
    ∀ (parser : Tokenizer) (newline : Bool) (output : List Byte),
      runLoop fuel parser newline output =
        (drive fuel parser).map (fun r => (output ++ render newline r.1, exitOf r.2)) := by
  induction fuel with
  | zero => intro parser newline output; rfl
  | succ fuel ih =>
    intro parser newline output
    rcases hN : Next parser with ⟨⟨token, err⟩, t2⟩
    have ho := Next_outcome parser
    rw [hN] at ho
    rcases ho with ⟨e, h1, -, -⟩ | ⟨h1, h2, -⟩ | ⟨h1, -, -, h4⟩
    · simp only at h1
      subst h1
      rw [drive_error fuel parser t2 token e hN, runLoop_succ, hN]
      simp [render, exitOf]
    · simp only at h1 h2
      subst h1 h2
      rw [drive_eof fuel parser t2 hN, runLoop_succ, hN]
      simp [render, exitOf, onToken, Token.Kind, eofToken]
    · simp only at h1 h4
      subst h1
      have hk : token.kind ≠ Kind.EOF := by
        rcases h4 with ⟨h, -⟩ | ⟨h, -⟩
        · rw [h]; decide
        · rw [h]; decide
      obtain ⟨data, nl2, hw⟩ : ∃ data nl2, onToken newline token = Action.write data nl2 := by
        rcases h4 with ⟨h, -⟩ | ⟨h, -⟩
        · rw [onToken_String newline token h]
          cases newline
          · exact ⟨_, _, rfl⟩
          · exact ⟨_, _, rfl⟩
        · rw [h, onToken_newlineToken]
          exact ⟨_, _, rfl⟩
      rw [drive_token fuel parser t2 token hN hk, runLoop_succ, hN]
      simp only [hw]
      rw [ih]
      cases hd : drive fuel t2 with
      | none => rfl
      | some r => simp [render, hw]

theorem Run_eq_tokenize (input : List Byte) :
    Run input = (tokenize input).map (fun r => (render true r.1, exitOf r.2)) := by
  rw [Run, tokenize, runLoop_eq_drive]
  simp

/-! ## Lemmas on one line of input -/

theorem Next_of_scan (t t2 : Tokenizer) (token : Token) (h : t.err = none)
    (hs : scan t.justReadString t.reader.pos t.reader.reader = ((token, none), t2)) :
    Next t = ((token, none), t2) := by
  rw [Next_of_err_none t h, hs]

theorem scan_quoted (v tail : List Byte) (pos : Int) :
    scan false pos (39 :: (quoteEscape v ++ 39 :: tail)) =
      ((stringToken v, none),
       { reader := { pos := pos + 1 + (quoteEscape v).length + 1, reader := tail },
         err := none, justReadString := true }) := by
  rw [scan_cons]
  simp [readQuoted_quoteEscape, stringToken]

theorem scan_space (j : Bool) (pos : Int) (rest : List Byte) :
    scan j pos (32 :: rest) = scan false (pos + 1) rest := by
  rw [scan_cons]
  simp

theorem escapeValue_plain (v : List Byte) (h : v.all (fun ch => !isReplaced ch) = true) :
    escapeValue v = v := by
  induction v with
  | nil => rfl
  | cons ch v ih =>
    simp only [List.all_cons, Bool.and_eq_true] at h
    have hch : ch ≠ 10 ∧ ch ≠ 13 ∧ ch ≠ 92 ∧ ch ≠ 34 ∧ ch ≠ 0 := by
      simpa [isReplaced, and_assoc] using h.1
    rw [escapeValue_cons, ih h.2]
    simp [replacements, hch]

theorem bare_not_replaced (r : List Byte) (h : r.all isUnquotedStringCharacter = true) :
    r.all (fun ch => !isReplaced ch) = true := by
  rw [List.all_eq_true] at h ⊢
  intro ch hch
  have := bare_ne ch (h ch hch)
  simp [isReplaced, this]

theorem Argument.plain_value (a : Argument) (h : a.plain = true) :
    escapeValue a.value = a.value := by
  cases a with
  | bare r =>
    simp only [Argument.plain, Bool.and_eq_true] at h
    exact escapeValue_plain r (bare_not_replaced r h.2)
  | quoted v => exact escapeValue_plain v h

theorem atSeparator_arguments (args : List Argument) :
    atSeparator (args.flatMap (fun a => 32 :: a.text) ++ [10]) = true := by
  cases args <;> simp [atSeparator]

theorem scan_argument (a : Argument) (tail : List Byte) (pos : Int) (h : a.plain = true)
    (ht : atSeparator tail = true) :
    ∃ pos2 : Int,
      scan false pos (a.text ++ tail) =
        ((stringToken a.value, none),
         { reader := { pos := pos2, reader := tail }, err := none, justReadString := true }) := by
  cases a with
  | bare r =>
    simp only [Argument.plain, Bool.and_eq_true, Bool.not_eq_true', List.isEmpty_eq_false] at h
    obtain ⟨ch, r, rfl⟩ := List.exists_cons_of_ne_nil h.1
    have hall := List.all_eq_true.mp h.2
    exact ⟨_, scan_bare ch r tail pos (hall ch (List.mem_cons_self _ _))
      (fun c hc => hall c (List.mem_cons_of_mem _ hc)) ht⟩
  | quoted v =>
    refine ⟨pos + 1 + (quoteEscape v).length + 1, ?_⟩
    simp only [Argument.text, Argument.value, List.cons_append, List.append_assoc,
      List.singleton_append]
    exact scan_quoted v tail pos

theorem drive_arguments (args : List Argument) :
    ∀ (j : Bool) (pos : Int), (∀ a ∈ args, a.plain = true) →
      ∃ fuel, drive fuel
          { reader := { pos := pos, reader := args.flatMap (fun a => 32 :: a.text) ++ [10] },
            err := none, justReadString := j } =
        some (args.map (fun a => stringToken a.value) ++ [newlineToken], none) := by
  induction args with
  | nil =>
    intro j pos _
    refine ⟨2, ?_⟩
    have h1 :
        Next { reader := { pos := pos, reader := [10] }, err := none, justReadString := j } =
          ((newlineToken, none),
           { reader := { pos := pos + 1, reader := [] }, err := none,
             justReadString := false }) :=
      Next_of_scan _ _ _ rfl (by simp [scan_cons])
    have h2 :
        Next { reader := { pos := pos + 1, reader := [] }, err := none,
               justReadString := false } =
          ((eofToken, none),
           { reader := { pos := pos + 1, reader := [] }, err := some Error.EOF,
             justReadString := false }) :=
      Next_of_scan _ _ _ rfl rfl
    simp only [List.flatMap_nil, List.nil_append, List.map_nil]
    rw [drive_token 1 _ _ _ h1 (by decide), drive_eof 0 _ _ h2]
  | cons a args ih =>
    intro j pos hp
    have ha : a.plain = true := hp a (List.mem_cons_self _ _)
    obtain ⟨pos2, hs⟩ := scan_argument a (args.flatMap (fun a => 32 :: a.text) ++ [10])
      (pos + 1) ha (atSeparator_arguments args)
    obtain ⟨fuel, hd⟩ := ih true pos2 (fun b hb => hp b (List.mem_cons_of_mem _ hb))
    refine ⟨fuel + 1, ?_⟩
    have h1 :
        Next { reader := { pos := pos,
                           reader := (a :: args).flatMap (fun a => 32 :: a.text) ++ [10] },
               err := none, justReadString := j } =
          ((stringToken a.value, none),
           { reader := { pos := pos2,
                         reader := args.flatMap (fun a => 32 :: a.text) ++ [10] },
             err := none, justReadString := true }) := by
      apply Next_of_scan _ _ _ rfl
      simp only [List.flatMap_cons, List.cons_append, List.append_assoc]
      rw [scan_space]
      simpa using hs
    rw [drive_token fuel _ _ _ h1 (by simp [stringToken]), hd]
    simp

theorem render_String_true (token : Token) (tokens : List Token)
    (h : token.kind = Kind.String) :
    render true (token :: tokens) = Sprintf_minus8s token.value ++ render false tokens := by
  simp [render, onToken_String true token h]

theorem render_String_false (token : Token) (tokens : List Token)
    (h : token.kind = Kind.String) :
    render false (token :: tokens) = quoteArgument token.value ++ render false tokens := by
  simp [render, onToken_String false token h]

theorem render_newlineToken (newline : Bool) (tokens : List Token) :
    render newline (newlineToken :: tokens) = 10 :: render true tokens := by
  simp [render, onToken_newlineToken]

theorem render_arguments (args : List Argument) (hp : ∀ a ∈ args, a.plain = true) :
    render false (args.map (fun a => stringToken a.value) ++ [newlineToken]) =
      args.flatMap (fun a => [32, 34] ++ a.value ++ [34]) ++ [10] := by
  induction args with
  | nil => simp [render, onToken_newlineToken]
  | cons a args ih =>
    have ha : a.plain = true := hp a (List.mem_cons_self _ _)
    rw [List.map_cons, List.cons_append, render_String_false _ _ rfl]
    rw [ih (fun b hb => hp b (List.mem_cons_of_mem _ hb)), quoteArgument_eq]
    simp [stringToken, Argument.plain_value a ha]

/-! ## Lemmas on newline bytes in the output -/

theorem drive_kinds (fuel : Nat) :
    ∀ (t : Tokenizer) (tokens : List Token) (e : Option Error),
      drive fuel t = some (tokens, e) →
      ∀ token ∈ tokens, token.kind = Kind.String ∨ token = newlineToken := by
  induction fuel with
  | zero => intro t tokens e h; simp [drive] at h
  | succ fuel ih =>
    intro t tokens e h
    rcases hN : Next t with ⟨⟨token, err⟩, t2⟩
    have ho := Next_outcome t
    rw [hN] at ho
    rcases ho with ⟨e2, h1, -, -⟩ | ⟨h1, h2, -⟩ | ⟨h1, -, -, h4⟩
    · simp only at h1
      subst h1
      rw [drive_error fuel t t2 token e2 hN] at h
      simp only [Option.some.injEq, Prod.mk.injEq] at h
      rw [← h.1]
      simp
    · simp only at h1 h2
      subst h1 h2
      rw [drive_eof fuel t t2 hN] at h
      simp only [Option.some.injEq, Prod.mk.injEq] at h
      rw [← h.1]
      simp
    · simp only at h1 h4
      subst h1
      have hk : token.kind ≠ Kind.EOF := by
        rcases h4 with ⟨h, -⟩ | ⟨h, -⟩
        · rw [h]; decide
        · rw [h]; decide
      rw [drive_token fuel t t2 token hN hk] at h
      cases hd : drive fuel t2 with
      | none => rw [hd] at h; simp at h
      | some r =>
        obtain ⟨tokens2, e2⟩ := r
        rw [hd] at h
        simp only [Option.some.injEq, Prod.mk.injEq] at h
        rw [← h.1]
        intro tk htk
        rcases List.mem_cons.mp htk with rfl | hmem
        · rcases h4 with ⟨h, -⟩ | ⟨h, -⟩
          · exact Or.inl h
          · exact Or.inr h
        · exact ih t2 tokens2 e2 hd tk hmem

theorem count_newline_quoteArgument (value : List Byte) :
    (quoteArgument value).count 10 = 0 := by
  rw [quoteArgument_eq, List.count_eq_zero]
  have := (not_mem_escapeValue value).1
  simp [this]

theorem count_newline_Sprintf (value : List Byte) :
    (Sprintf_minus8s value).count 10 = value.count 10 := by
  rw [Sprintf_minus8s_eq, List.count_append]
  have : (List.replicate (8 - RuneCountInString value) 32).count 10 = 0 := by
    rw [List.count_eq_zero]
    intro h
    have := List.eq_of_mem_replicate h
    omega
  omega

theorem count_newline_render (tokens : List Token) :
    ∀ newline : Bool,
      (∀ token ∈ tokens, token.kind = Kind.String ∨ token = newlineToken) →
      (render newline tokens).count 10 =
        newlineTokens tokens + ((commandValues newline tokens).map (List.count 10)).sum := by
  induction tokens with
  | nil => intro newline _; simp [render, newlineTokens, commandValues]
  | cons token tokens ih =>
    intro newline hk
    have hk2 : ∀ tk ∈ tokens, tk.kind = Kind.String ∨ tk = newlineToken :=
      fun tk h => hk tk (List.mem_cons_of_mem _ h)
    rcases hk token (List.mem_cons_self _ _) with hs | hn
    · have hc : newlineTokens (token :: tokens) = newlineTokens tokens := by
        simp [newlineTokens, hs]
      cases newline with
      | true =>
        rw [render_String_true token tokens hs, List.count_append, count_newline_Sprintf,
          ih false hk2, hc]
        simp only [commandValues, hs, if_true, List.map_cons, List.sum_cons]
        omega
      | false =>
        rw [render_String_false token tokens hs, List.count_append,
          count_newline_quoteArgument, ih false hk2, hc]
        simp only [commandValues, hs, Bool.false_eq_true, if_false]
        omega
    · subst hn
      have hc : newlineTokens (newlineToken :: tokens) = newlineTokens tokens + 1 := by
        simp [newlineTokens, newlineToken]
      rw [render_newlineToken, List.count_cons_self, ih true hk2, hc]
      simp only [commandValues, newlineToken]
      omega

/-! ## Lemmas on inputs of bare strings, spaces and newlines -/

theorem atSeparator_of_not_bare (rest : List Byte)
    (ha : ∀ ch ∈ rest, isBareInputByte ch = true)
    (hh : ∀ ch, rest.head? = some ch → isUnquotedStringCharacter ch = false) :
    atSeparator rest = true := by
  cases rest with
  | nil => rfl
  | cons c tl =>
    have h1 := ha c (List.mem_cons_self _ _)
    have h2 := hh c rfl
    simpa [isBareInputByte, h2, atSeparator] using h1

theorem dropWhile_head_not (p : Byte → Bool) (l : List Byte) :
    ∀ ch, (l.dropWhile p).head? = some ch → p ch = false := by
  induction l with
  | nil => intro ch h; simp at h
  | cons a l ih =>
    intro ch h
    by_cases hp : p a = true
    · rw [List.dropWhile_cons_of_pos hp] at h
      exact ih ch h
    · rw [List.dropWhile_cons_of_neg hp] at h
      simp only [List.head?_cons, Option.some.injEq] at h
      subst h
      simpa using hp

theorem readBare_bare_input (sb rest : List Byte) (pos : Int)
    (ha : ∀ ch ∈ rest, isBareInputByte ch = true) :
    readBare sb pos rest =
      { token := { value := sb ++ rest.takeWhile isUnquotedStringCharacter, kind := Kind.String },
        err := none,
        reader := { pos := pos + (rest.takeWhile isUnquotedStringCharacter).length,
                    reader := rest.dropWhile isUnquotedStringCharacter } } ∧
      atSeparator (rest.dropWhile isUnquotedStringCharacter) = true := by
  have hsep : atSeparator (rest.dropWhile isUnquotedStringCharacter) = true :=
    atSeparator_of_not_bare _
      (fun ch h => ha ch ((List.dropWhile_sublist _).subset h))
      (dropWhile_head_not _ rest)
  refine ⟨?_, hsep⟩
  have hrun := readBare_run (rest.takeWhile isUnquotedStringCharacter) sb pos
    (rest.dropWhile isUnquotedStringCharacter)
    (fun ch h => List.mem_takeWhile_imp h) hsep
  rw [List.takeWhile_append_dropWhile] at hrun
  exact hrun

theorem scan_bare_input (rest : List Byte) :
    ∀ (j : Bool) (pos : Int), (∀ ch ∈ rest, isBareInputByte ch = true) →
      (j = true → atSeparator rest = true) → BareOutcome (scan j pos rest) rest.length := by
  induction rest with
  | nil => intro j pos _ _; exact ⟨rfl, Or.inl rfl⟩
  | cons ch rest ih =>
    intro j pos ha hj
    have har : ∀ c ∈ rest, isBareInputByte c = true :=
      fun c h => ha c (List.mem_cons_of_mem _ h)
    have hch := ha ch (List.mem_cons_self _ _)
    rw [scan_cons]
    split
    · obtain ⟨h1, h2⟩ := ih false (pos + 1) har (by simp)
      refine ⟨h1, ?_⟩
      rcases h2 with h2 | ⟨h2, h3, h4, h5, h6⟩
      · exact Or.inl h2
      · exact Or.inr ⟨h2, h3, by simp only [List.length_cons]; omega, h5, h6⟩
    · split
      · exact ⟨rfl, Or.inr ⟨Or.inr rfl, rfl, by simp, har, by simp⟩⟩
      · rename_i h32 h10
        have hb : isUnquotedStringCharacter ch = true := by
          simpa [isBareInputByte, h32, h10] using hch
        have h39 : ch ≠ 39 := (bare_ne ch hb).2.2.1
        have hjf : j = false := by
          cases j with
          | false => rfl
          | true =>
            have := hj rfl
            simp [atSeparator, h32, h10] at this
        subst hjf
        rw [if_neg h39, if_pos hb]
        simp only [Bool.false_eq_true, if_false]
        obtain ⟨hr, hsep⟩ := readBare_bare_input [ch] rest (pos + 1) har
        rw [hr]
        refine ⟨rfl, Or.inr ⟨Or.inl ⟨rfl, ?_⟩, rfl, ?_, ?_, fun _ => hsep⟩⟩
        · intro c hc
          rcases List.mem_append.mp hc with h | h
          · rw [List.mem_singleton] at h
            rw [h]
            exact hb
          · exact List.mem_takeWhile_imp h
        · have := (List.dropWhile_sublist isUnquotedStringCharacter (l := rest)).length_le
          simp only [List.length_cons]
          omega
        · exact fun c h => har c ((List.dropWhile_sublist _).subset h)

theorem Next_bare_input (t : Tokenizer) (he : t.err = none)
    (ha : ∀ ch ∈ t.reader.reader, isBareInputByte ch = true)
    (hj : t.justReadString = true → atSeparator t.reader.reader = true) :
    BareOutcome (Next t) t.reader.reader.length := by
  have h := scan_bare_input t.reader.reader t.justReadString t.reader.pos ha hj
  rw [Next_of_err_none t he, h.1]
  exact h

theorem drive_bare_input (fuel : Nat) :
    ∀ t : Tokenizer, t.err = none → (∀ ch ∈ t.reader.reader, isBareInputByte ch = true) →
      (t.justReadString = true → atSeparator t.reader.reader = true) →
      t.reader.reader.length < fuel →
      ∃ tokens, drive fuel t = some (tokens, none) ∧ ∀ token ∈ tokens, token.isBare := by
  induction fuel with
  | zero => intro t _ _ _ h; omega
  | succ fuel ih =>
    intro t he ha hj hlen
    rcases hN : Next t with ⟨⟨token, err⟩, t2⟩
    have ho := Next_bare_input t he ha hj
    rw [hN] at ho
    obtain ⟨h1, h2⟩ := ho
    simp only at h1 h2
    subst h1
    rcases h2 with h2 | ⟨h2, h3, h4, h5, h6⟩
    · subst h2
      exact ⟨[], drive_eof fuel t t2 hN, by simp⟩
    · have hk : token.kind ≠ Kind.EOF := by
        rcases h2 with ⟨h, -⟩ | h
        · rw [h]; decide
        · rw [h]; decide
      obtain ⟨tokens, hd, hb⟩ := ih t2 h3 h5 h6 (by omega)
      refine ⟨token :: tokens, by rw [drive_token fuel t t2 token hN hk, hd], ?_⟩
      intro tk htk
      rcases List.mem_cons.mp htk with rfl | hmem
      · exact h2
      · exact hb tk hmem

theorem tokenize_bare_input (input : List Byte)
    (ha : ∀ ch ∈ input, isBareInputByte ch = true) :
    ∃ tokens, tokenize input = some (tokens, none) ∧ ∀ token ∈ tokens, token.isBare :=
  drive_bare_input (input.length + 1) (New input) rfl ha (by simp [New]) (by simp [New])

theorem render_bare_input (tokens : List Token) :
    ∀ newline : Bool, (∀ token ∈ tokens, token.isBare) →
      oneStringPerLine newline tokens = true →
      ∀ ch ∈ render newline tokens, isBareInputByte ch = true := by
  induction tokens with
  | nil => intro newline _ _ ch h; simp [render] at h
  | cons token tokens ih =>
    intro newline hb hone ch hch
    have hb2 : ∀ tk ∈ tokens, tk.isBare := fun tk h => hb tk (List.mem_cons_of_mem _ h)
    rcases hb token (List.mem_cons_self _ _) with ⟨hs, hv⟩ | hn
    · simp only [oneStringPerLine, hs, Bool.and_eq_true] at hone
      obtain ⟨hnl, hone2⟩ := hone
      subst hnl
      rw [render_String_true token tokens hs, Sprintf_minus8s_eq] at hch
      rcases List.mem_append.mp hch with h | h
      · rcases List.mem_append.mp h with h | h
        · simp [isBareInputByte, hv ch h]
        · rw [List.eq_of_mem_replicate h]
          decide
      · exact ih false hb2 hone2 ch h
    · subst hn
      simp only [oneStringPerLine, newlineToken] at hone
      rw [render_newlineToken] at hch
      rcases List.mem_cons.mp hch with h | h
      · rw [h]
        decide
      · exact ih true hb2 hone ch h

/-! ## Lemmas on sequences of calls -/

theorem afterCalls_succ (n : Nat) : ∀ t : Tokenizer,
    afterCalls (n + 1) t = (Next (afterCalls n t)).2 := by
  induction n with
  | zero => intro t; rfl
  | succ n ih =>
    intro t
    show afterCalls (n + 1) (Next t).2 = (Next (afterCalls n (Next t).2)).2
    exact ih (Next t).2

theorem afterCalls_add (a b : Nat) (t : Tokenizer) :
    afterCalls (a + b) t = afterCalls b (afterCalls a t) := by
  induction b with
  | zero => rfl
  | succ b ih =>
    rw [← Nat.add_assoc, afterCalls_succ, afterCalls_succ, ih]

theorem afterCalls_of_err (n : Nat) (t : Tokenizer) (e : Error) (h : t.err = some e) :
    afterCalls n t = t := by
  induction n with
  | zero => rfl
  | succ n ih => rw [afterCalls_succ, ih, Next_of_err_some t e h]

theorem nthCall_succ (n : Nat) (t : Tokenizer) :
    nthCall (n + 1) t = (Next (afterCalls n t)).1 := rfl

theorem replay_of_err (t : Tokenizer) (e : Error) (h : t.err = some e) (j : Nat) :
    Next (afterCalls j t) = ((invalidToken, some e), t) := by
  rw [afterCalls_of_err j t e h, Next_of_err_some t e h]

theorem scan_spaces (k : Nat) : ∀ (j : Bool) (pos : Int) (rest : List Byte),
    scan j pos (List.replicate (k + 1) 32 ++ rest) = scan false (pos + (k + 1 : Nat)) rest := by
  induction k with
  | zero =>
    intro j pos rest
    simp [List.replicate, scan_space]
  | succ k ih =>
    intro j pos rest
    rw [List.replicate_succ, List.cons_append, scan_space, ih]
    congr 1
    push_cast
    omega

theorem scan_spaces_of (k : Nat) (j : Bool) (pos : Int) (rest : List Byte)
    (h : j = true → 1 ≤ k) :
    scan j pos (List.replicate k 32 ++ rest) = scan false (pos + (k : Nat)) rest := by
  cases k with
  | zero =>
    have : j = false := by
      cases j with
      | false => rfl
      | true => exact absurd (h rfl) (by omega)
    subst this
    simp
  | succ k => exact scan_spaces k j pos rest

/-- A scan that returns a String token has skipped spaces only and then met the
start of a literal: a single quote or a bare-string character. -/
theorem scan_String_spaces (rest : List Byte) :
    ∀ (j : Bool) (pos : Int),
      (scan j pos rest).1.1.kind = Kind.String → (scan j pos rest).1.2 = none →
      ∃ (k : Nat) (ch : Byte) (tl : List Byte),
        (j = true → 1 ≤ k) ∧ rest = List.replicate k 32 ++ ch :: tl ∧
          (ch = 39 ∨ isUnquotedStringCharacter ch = true) ∧
          scan j pos rest = scan false (pos + (k : Nat)) (ch :: tl) := by
  induction rest with
  | nil => intro j pos hk _; simp [scan, eofToken] at hk
  | cons c rest ih =>
    intro j pos hk he
    by_cases h32 : c = 32
    · subst h32
      rw [scan_space] at hk he
      obtain ⟨k, ch, tl, -, hrest, hch, hscan⟩ := ih false (pos + 1) hk he
      refine ⟨k + 1, ch, tl, fun _ => by omega, ?_, hch, ?_⟩
      · rw [hrest, List.replicate_succ, List.cons_append]
      · rw [scan_space, hscan]
        congr 1
        push_cast
        omega
    · rw [scan_cons, if_neg h32] at hk he
      by_cases h10 : c = 10
      · rw [if_pos h10] at hk
        simp [newlineToken] at hk
      · rw [if_neg h10] at hk he
        by_cases h39 : c = 39
        · rw [if_pos h39] at hk he
          cases j with
          | true => simp at he
          | false =>
            exact ⟨0, c, rest, by simp, by simp, Or.inl h39, by simp⟩
        · rw [if_neg h39] at hk he
          by_cases hb : isUnquotedStringCharacter c = true
          · rw [if_pos hb] at hk he
            cases j with
            | true => simp at he
            | false =>
              exact ⟨0, c, rest, by simp, by simp, Or.inr hb, by simp⟩
          · rw [if_neg hb] at he
            simp at he

/-! ## Lemmas on the count of bytes read -/

theorem Consumed.refl (pos : Int) (rest : List Byte) :
    Consumed pos rest { pos := pos, reader := rest } :=
  ⟨[], by simp, by simp⟩

theorem Consumed.step (pos : Int) (ch : Byte) (rest : List Byte) (b : byteReader)
    (h : Consumed (pos + 1) rest b) : Consumed pos (ch :: rest) b := by
  obtain ⟨consumed, h1, h2⟩ := h
  refine ⟨ch :: consumed, by rw [h1]; rfl, ?_⟩
  rw [h2, List.length_cons]
  push_cast
  omega

theorem Consumed.trans (pos : Int) (rest : List Byte) (b b2 : byteReader)
    (h1 : Consumed pos rest b) (h2 : Consumed b.pos b.reader b2) : Consumed pos rest b2 := by
  obtain ⟨c1, e1, p1⟩ := h1
  obtain ⟨c2, e2, p2⟩ := h2
  refine ⟨c1 ++ c2, by rw [e1, e2, List.append_assoc], ?_⟩
  rw [p2, p1, List.length_append]
  push_cast
  omega

theorem Consumed.length (pos : Int) (rest : List Byte) (b : byteReader)
    (h : Consumed pos rest b) : b.pos + b.reader.length = pos + rest.length := by
  obtain ⟨consumed, h1, h2⟩ := h
  rw [h1, h2, List.length_append]
  push_cast
  omega

theorem readQuoted_consumed (rest : List Byte) :
    ∀ (sb : List Byte) (escaping : Bool) (pos : Int),
      Consumed pos rest (readQuoted sb escaping pos rest).reader := by
  induction rest with
  | nil => intro sb escaping pos; exact Consumed.refl pos []
  | cons ch rest ih =>
    intro sb escaping pos
    rw [readQuoted_cons]
    split
    · split
      · exact Consumed.step _ _ _ _ (ih _ _ _)
      · exact Consumed.step _ _ _ _ (Consumed.refl _ _)
    · split
      · exact Consumed.step _ _ _ _ (ih _ _ _)
      · split
        · exact Consumed.step _ _ _ _ (Consumed.refl _ _)
        · exact Consumed.step _ _ _ _ (ih _ _ _)

theorem readBare_consumed (rest : List Byte) :
    ∀ (sb : List Byte) (pos : Int), Consumed pos rest (readBare sb pos rest).reader := by
  induction rest with
  | nil => intro sb pos; exact Consumed.refl pos []
  | cons ch rest ih =>
    intro sb pos
    rw [readBare_cons]
    split
    · exact Consumed.step _ _ _ _ (ih _ _)
    · split
      · rw [Unread_after_Read]
        exact Consumed.refl _ _
      · exact Consumed.step _ _ _ _ (Consumed.refl _ _)

theorem scan_consumed (rest : List Byte) :
    ∀ (j : Bool) (pos : Int), Consumed pos rest (scan j pos rest).2.reader := by
  induction rest with
  | nil => intro j pos; exact Consumed.refl pos []
  | cons ch rest ih =>
    intro j pos
    rw [scan_cons]
    split
    · exact Consumed.step _ _ _ _ (ih _ _)
    · split
      · exact Consumed.step _ _ _ _ (Consumed.refl _ _)
      · split
        · split
          · exact Consumed.step _ _ _ _ (Consumed.refl _ _)
          · exact Consumed.step _ _ _ _ (readQuoted_consumed _ _ _ _)
        · split
          · split
            · exact Consumed.step _ _ _ _ (Consumed.refl _ _)
            · exact Consumed.step _ _ _ _ (readBare_consumed _ _ _)
          · exact Consumed.step _ _ _ _ (Consumed.refl _ _)

theorem Next_consumed (t : Tokenizer) :
    Consumed t.reader.pos t.reader.reader (Next t).2.reader := by
  cases h : t.err with
  | some e =>
    rw [Next_of_err_some t e h]
    exact Consumed.refl _ _
  | none =>
    rw [Next_of_err_none t h]
    have := scan_consumed t.reader.reader t.justReadString t.reader.pos
    split
    · exact this
    · exact this

theorem afterCalls_consumed (input : List Byte) (n : Nat) :
    Consumed 0 input (afterCalls n (New input)).reader := by
  induction n with
  | zero => exact Consumed.refl 0 input
  | succ n ih =>
    rw [afterCalls_succ]
    exact Consumed.trans _ _ _ _ ih (Next_consumed _)

theorem afterCalls_pos (input : List Byte) (n : Nat) (consumed rest : List Byte)
    (hin : input = consumed ++ rest) (hrest : (afterCalls n (New input)).reader.reader = rest) :
    (afterCalls n (New input)).reader.pos = consumed.length := by
  subst hin
  have h := Consumed.length _ _ _ (afterCalls_consumed (consumed ++ rest) n)
  rw [hrest, List.length_append] at h
  push_cast at h
  omega

/-! ## Lemmas on the errors of `Next` -/

theorem fmtD_nat (k : Nat) (p : Int) (h : p = (k : Int)) : fmtD p = toString k := by
  subst h
  rfl

theorem Next_error_of_scan (t t2 : Tokenizer) (token : Token) (e : Error) (h : t.err = none)
    (hs : scan t.justReadString t.reader.pos t.reader.reader = ((token, some e), t2)) :
    (Next t).1 = (token, some e) := by
  rw [Next_of_err_none t h, hs]

theorem scan_replicate (s : Nat) (j : Bool) (pos : Int) (rest : List Byte) :
    scan j pos (List.replicate s 32 ++ rest) =
      scan (j && decide (s = 0)) (pos + (s : Nat)) rest := by
  cases s with
  | zero => simp
  | succ s =>
    rw [scan_spaces]
    simp

theorem readBare_run_rejected (r : List Byte) :
    ∀ (sb : List Byte) (pos : Int) (ch : Byte) (tail : List Byte),
      (∀ c ∈ r, isUnquotedStringCharacter c = true) →
      isUnquotedStringCharacter ch = false → ch ≠ 32 → ch ≠ 10 →
      readBare sb pos (r ++ ch :: tail) =
        { token := invalidToken,
          err := some (errUnexpectedCharacter ch (pos + (r.length : Nat))),
          reader := { pos := pos + (r.length : Nat) + 1, reader := tail } } := by
  induction r with
  | nil =>
    intro sb pos ch tail _ hb h32 h10
    rw [List.nil_append, readBare_cons]
    simp [hb, h32, h10]
  | cons c r ih =>
    intro sb pos ch tail hr hb h32 h10
    have hc : isUnquotedStringCharacter c = true := hr c (List.mem_cons_self _ _)
    rw [List.cons_append, readBare_cons, if_pos hc,
      ih _ _ _ _ (fun x hx => hr x (List.mem_cons_of_mem _ hx)) hb h32 h10]
    simp only [List.length_cons, Nat.cast_add, Nat.cast_one]
    congr 3
    · omega
    · omega

theorem scan_unexpected (j : Bool) (pos : Int) (r : List Byte) (ch : Byte) (tail : List Byte)
    (hr : ∀ c ∈ r, isUnquotedStringCharacter c = true)
    (hb : isUnquotedStringCharacter ch = false) (h32 : ch ≠ 32) (h10 : ch ≠ 10)
    (hq : r = [] → ch ≠ 39) (hj : r ≠ [] → j = false) :
    (scan j pos (r ++ ch :: tail)).1 =
      (invalidToken, some (errUnexpectedCharacter ch (pos + (r.length : Nat)))) := by
  cases r with
  | nil =>
    have h39 := hq rfl
    rw [List.nil_append, scan_cons]
    simp [h32, h10, h39, hb]
  | cons c r =>
    have hjf := hj (by simp)
    subst hjf
    have hc : isUnquotedStringCharacter c = true := hr c (List.mem_cons_self _ _)
    obtain ⟨c32, c10, c39, -⟩ := bare_ne c hc
    rw [List.cons_append, scan_cons, if_neg c32, if_neg c10, if_neg c39, if_pos hc,
      readBare_run_rejected r _ _ _ _ (fun x hx => hr x (List.mem_cons_of_mem _ hx)) hb h32 h10]
    simp only [Bool.false_eq_true, if_false, List.length_cons, Nat.cast_add, Nat.cast_one]
    congr 3
    omega

theorem readQuoted_written (v : List Byte) :
    ∀ (sb : List Byte) (pos : Int) (rest : List Byte),
      readQuoted sb false pos (quoteEscape v ++ rest) =
        readQuoted (sb ++ v) false (pos + ((quoteEscape v).length : Nat)) rest := by
  induction v with
  | nil => intro sb pos rest; simp [quoteEscape]
  | cons ch v ih =>
    intro sb pos rest
    by_cases h : ch = 92 ∨ ch = 39
    · have h2 : quoteEscape (ch :: v) = 92 :: ch :: quoteEscape v := by simp [quoteEscape, h]
      rw [h2, List.cons_append, List.cons_append]
      simp only [readQuoted_cons, if_true, if_pos h, Bool.false_eq_true, if_false]
      rw [ih]
      simp only [List.append_assoc, List.singleton_append, List.length_cons, Nat.cast_add,
        Nat.cast_one]
      congr 1
      omega
    · have h2 : quoteEscape (ch :: v) = ch :: quoteEscape v := by simp [quoteEscape, h]
      have h92 : ¬ ch = 92 := fun e => h (Or.inl e)
      have h39 : ¬ ch = 39 := fun e => h (Or.inr e)
      rw [h2, List.cons_append, readQuoted_cons]
      simp only [Bool.false_eq_true, if_false, if_neg h92, if_neg h39]
      rw [ih]
      simp only [List.append_assoc, List.singleton_append, List.length_cons, Nat.cast_add,
        Nat.cast_one]
      congr 1
      omega

theorem readQuoted_invalid_escape (sb : List Byte) (pos : Int) (ch : Byte) (tail : List Byte)
    (h92 : ch ≠ 92) (h39 : ch ≠ 39) :
    readQuoted sb false pos (92 :: ch :: tail) =
      { token := invalidToken, err := some (errInvalidEscape pos),
        reader := { pos := pos + 1 + 1, reader := tail } } := by
  rw [readQuoted_cons]
  simp only [Bool.false_eq_true, if_false, if_true]
  rw [readQuoted_cons]
  simp only [if_true, h92, h39, or_self, if_false]
  congr 3
  omega

theorem scan_invalid_escape (pos : Int) (v : List Byte) (ch : Byte) (tail : List Byte)
    (h92 : ch ≠ 92) (h39 : ch ≠ 39) :
    (scan false pos (39 :: (quoteEscape v ++ 92 :: ch :: tail))).1 =
      (invalidToken, some (errInvalidEscape (pos + 1 + ((quoteEscape v).length : Nat)))) := by
  rw [scan_cons]
  simp only [Bool.false_eq_true, if_false]
  rw [readQuoted_written, readQuoted_invalid_escape _ _ _ _ h92 h39]
  simp

theorem scan_unterminated (pos : Int) (v last : List Byte) (hlast : last = [] ∨ last = [92]) :
    (scan false pos (39 :: (quoteEscape v ++ last))).1 =
      (invalidToken, some Error.ErrUnexpectedEOF) := by
  rw [scan_cons]
  simp only [Bool.false_eq_true, if_false]
  rw [readQuoted_written]
  rcases hlast with h | h
  · subst h
    simp [readQuoted]
  · subst h
    simp [readQuoted]

theorem Next_quoted (t : Tokenizer) (s : Nat) (v rest : List Byte) (he : t.err = none)
    (hj : t.justReadString = true → 1 ≤ s)
    (hrest : t.reader.reader = List.replicate s 32 ++ 39 :: (quoteEscape v ++ 39 :: rest)) :
    Next t =
      ((stringToken v, none),
       { reader := { pos := t.reader.pos + (s : Nat) + 1 + (quoteEscape v).length + 1,
                     reader := rest },
         err := none, justReadString := true }) := by
  apply Next_of_scan t _ _ he
  rw [hrest, scan_spaces_of s _ _ _ hj, scan_quoted]

/-! ## Lemmas on decoding the output escaping -/

theorem unescapeValue_plain (ch : Byte) (rest : List Byte) (h : ch ≠ 92) :
    unescapeValue (ch :: rest) = ch :: unescapeValue rest := by
  rw [unescapeValue.eq_def]
  simp [h]

theorem unescapeValue_n (rest : List Byte) :
    unescapeValue (92 :: 110 :: rest) = 10 :: unescapeValue rest := by
  rw [unescapeValue.eq_def]
  simp

theorem unescapeValue_r (rest : List Byte) :
    unescapeValue (92 :: 114 :: rest) = 13 :: unescapeValue rest := by
  rw [unescapeValue.eq_def]
  simp

theorem unescapeValue_backslash (rest : List Byte) :
    unescapeValue (92 :: 92 :: rest) = 92 :: unescapeValue rest := by
  rw [unescapeValue.eq_def]
  simp

theorem unescapeValue_quote (rest : List Byte) :
    unescapeValue (92 :: 34 :: rest) = 34 :: unescapeValue rest := by
  rw [unescapeValue.eq_def]
  simp

theorem unescapeValue_x00 (rest : List Byte) :
    unescapeValue (92 :: 120 :: 48 :: 48 :: rest) = 0 :: unescapeValue rest := by
  rw [unescapeValue.eq_def]
  simp

theorem unescapeValue_escapeValue (value : List Byte) :
    unescapeValue (escapeValue value) = value := by
  induction value with
  | nil => simp [escapeValue, unescapeValue]
  | cons ch value ih =>
    rw [escapeValue_cons]
    by_cases h10 : ch = 10
    · subst h10
      simp [replacements, unescapeValue_n, ih]
    by_cases h13 : ch = 13
    · subst h13
      simp [replacements, unescapeValue_r, ih]
    by_cases h92 : ch = 92
    · subst h92
      simp [replacements, unescapeValue_backslash, ih]
    by_cases h34 : ch = 34
    · subst h34
      simp [replacements, unescapeValue_quote, ih]
    by_cases h0 : ch = 0
    · subst h0
      simp [replacements, unescapeValue_x00, ih]
    simp [replacements, h10, h13, h92, h34, h0, unescapeValue_plain ch _ h92, ih]

/-! ## Lemmas on argument-free dumps -/

theorem isLineByte_isBareInputByte (ch : Byte) (h : isLineByte ch = true) :
    isBareInputByte ch = true := by
  simp only [isLineByte, Bool.or_eq_true, decide_eq_true_eq] at h
  simp only [isBareInputByte, Bool.or_eq_true, decide_eq_true_eq]
  rcases h with h | h
  · exact Or.inl (Or.inl h)
  · exact Or.inr h

theorem atSeparator_line (ch : Byte) (rest : List Byte) (hl : isLineByte ch = true)
    (h : atSeparator (ch :: rest) = true) : ch = 10 := by
  simp only [atSeparator, Bool.or_eq_true, decide_eq_true_eq] at h
  rcases h with h | h
  · subst h
    simp [isLineByte, isUnquotedStringCharacter] at hl
  · exact h

theorem drive_lines (fuel : Nat) :
    ∀ (t : Tokenizer) (newline : Bool), t.err = none →
      (∀ ch ∈ t.reader.reader, isLineByte ch = true) →
      (t.justReadString = true → atSeparator t.reader.reader = true) →
      (newline = false → atSeparator t.reader.reader = true) →
      t.reader.reader.length < fuel →
      ∃ tokens, drive fuel t = some (tokens, none) ∧ commandLines newline tokens = true := by
  induction fuel with
  | zero => intro t _ _ _ _ _ h; omega
  | succ fuel ih =>
    intro t newline he ha hj hn hlen
    obtain ⟨⟨pos, rest⟩, err, j⟩ := t
    simp only at he ha hj hn hlen
    subst he
    cases rest with
    | nil =>
      exact ⟨[], drive_eof fuel _ _ (Next_of_scan _ _ _ rfl rfl), rfl⟩
    | cons ch rest =>
      have har : ∀ c ∈ rest, isLineByte c = true :=
        fun c h => ha c (List.mem_cons_of_mem _ h)
      have hch := ha ch (List.mem_cons_self _ _)
      by_cases h10 : ch = 10
      · subst h10
        have h1 : Next { reader := { pos := pos, reader := 10 :: rest }, err := none,
                         justReadString := j } =
            ((newlineToken, none),
             { reader := { pos := pos + 1, reader := rest }, err := none,
               justReadString := false }) :=
          Next_of_scan _ _ _ rfl (by simp [scan_cons])
        have hlen1 : rest.length < fuel := by
          simp only [List.length_cons] at hlen
          omega
        obtain ⟨tokens, hd, hc⟩ :=
          ih { reader := { pos := pos + 1, reader := rest }, err := none,
               justReadString := false }
            true rfl har (by simp) (by simp) hlen1
        refine ⟨newlineToken :: tokens, ?_, ?_⟩
        · rw [drive_token fuel _ _ _ h1 (by decide), hd]
        · simpa [commandLines, newlineToken] using hc
      · have hb : isUnquotedStringCharacter ch = true := by
          simpa [isLineByte, h10] using hch
        have hjf : j = false := by
          cases j with
          | false => rfl
          | true => exact absurd (atSeparator_line ch rest hch (hj rfl)) h10
        have hnl : newline = true := by
          cases newline with
          | true => rfl
          | false => exact absurd (atSeparator_line ch rest hch (hn rfl)) h10
        subst hjf hnl
        obtain ⟨h32, -, h39, -⟩ := bare_ne ch hb
        obtain ⟨hr, hsep⟩ := readBare_bare_input [ch] rest (pos + 1)
          (fun c h => isLineByte_isBareInputByte c (har c h))
        have h1 : Next { reader := { pos := pos, reader := ch :: rest }, err := none,
                         justReadString := false } =
            ((stringToken (ch :: rest.takeWhile isUnquotedStringCharacter), none),
             { reader := { pos := pos + 1 +
                             (rest.takeWhile isUnquotedStringCharacter).length,
                           reader := rest.dropWhile isUnquotedStringCharacter },
               err := none, justReadString := true }) := by
          apply Next_of_scan _ _ _ rfl
          simp only
          rw [scan_cons, if_neg h32, if_neg h10, if_neg h39, if_pos hb, hr]
          simp [stringToken]
        have hlen2 : (rest.dropWhile isUnquotedStringCharacter).length < fuel := by
          have := (List.dropWhile_sublist isUnquotedStringCharacter (l := rest)).length_le
          simp only [List.length_cons] at hlen
          omega
        obtain ⟨tokens, hd, hc⟩ :=
          ih { reader := { pos := pos + 1 +
                             (rest.takeWhile isUnquotedStringCharacter).length,
                           reader := rest.dropWhile isUnquotedStringCharacter },
               err := none, justReadString := true }
            false rfl
            (fun c h => har c ((List.dropWhile_sublist _).subset h))
            (fun _ => hsep) (fun _ => hsep) hlen2
        refine ⟨stringToken (ch :: rest.takeWhile isUnquotedStringCharacter) :: tokens, ?_, ?_⟩
        · rw [drive_token fuel _ _ _ h1 (by simp [stringToken]), hd]
        · simp only [commandLines, stringToken, Bool.true_and, List.isEmpty_cons,
            Bool.not_false, List.all_cons, hb, hc, Bool.and_true]
          rw [List.all_eq_true]
          exact fun c h => List.mem_takeWhile_imp h

theorem atSeparator_render_false (tokens : List Token)
    (h : commandLines false tokens = true) : atSeparator (render false tokens) = true := by
  cases tokens with
  | nil => rfl
  | cons token tokens =>
    rcases hk : token.kind with _ | _ | _ | _
    · simp [commandLines, hk] at h
    · simp [commandLines, hk] at h
    · simp only [commandLines, hk, Bool.and_eq_true, decide_eq_true_eq] at h
      rw [h.1, render_newlineToken]
      rfl
    · simp [commandLines, hk] at h

theorem atSeparator_replicate (p : Nat) (rest : List Byte) (h : atSeparator rest = true) :
    atSeparator (List.replicate p 32 ++ rest) = true := by
  cases p with
  | zero => simpa using h
  | succ p => simp [List.replicate_succ, atSeparator]

theorem drive_render (tokens : List Token) :
    ∀ (newline j : Bool) (pos : Int) (k : Nat), commandLines newline tokens = true →
      (newline = true → j = true → 1 ≤ k) →
      ∃ fuel, drive fuel
          { reader := { pos := pos, reader := List.replicate k 32 ++ render newline tokens },
            err := none, justReadString := j } = some (tokens, none) := by
  induction tokens with
  | nil =>
    intro newline j pos k _ _
    have hs : scan j pos (List.replicate k 32 ++ render newline []) =
        ((eofToken, none),
         { reader := { pos := pos + (k : Nat), reader := [] }, err := some Error.EOF,
           justReadString := j && decide (k = 0) }) := by
      simp only [render]
      rw [scan_replicate]
      rfl
    exact ⟨1, drive_eof 0 _ _ (Next_of_scan _ _ _ rfl hs)⟩
  | cons token tokens ih =>
    intro newline j pos k hc hjk
    rcases hk : token.kind with _ | _ | _ | _
    · simp [commandLines, hk] at hc
    · simp only [commandLines, hk, Bool.and_eq_true, Bool.not_eq_true',
        List.isEmpty_eq_false] at hc
      obtain ⟨⟨⟨hnl, hne⟩, hall⟩, hc2⟩ := hc
      subst hnl
      obtain ⟨c, v, hv⟩ := List.exists_cons_of_ne_nil hne
      have htok : token = stringToken (c :: v) := by
        cases token
        simp only [stringToken, Token.mk.injEq]
        exact ⟨hv, hk⟩
      subst htok
      have hbare := List.all_eq_true.mp hall
      simp only [stringToken] at hbare
      have hsep : atSeparator
          (List.replicate (8 - RuneCountInString (c :: v)) 32 ++ render false tokens) = true :=
        atSeparator_replicate _ _ (atSeparator_render_false tokens hc2)
      obtain ⟨fuel, hd⟩ := ih false true (pos + (k : Nat) + (v.length + 1 : Nat))
        (8 - RuneCountInString (c :: v)) hc2 (by simp)
      refine ⟨fuel + 1, ?_⟩
      have h1 :
          Next { reader := { pos := pos,
                             reader := List.replicate k 32 ++
                               render true (stringToken (c :: v) :: tokens) },
                 err := none, justReadString := j } =
            ((stringToken (c :: v), none),
             { reader := { pos := pos + (k : Nat) + (v.length + 1 : Nat),
                           reader := List.replicate (8 - RuneCountInString (c :: v)) 32 ++
                             render false tokens },
               err := none, justReadString := true }) := by
        apply Next_of_scan _ _ _ rfl
        simp only
        rw [render_String_true _ _ rfl, Sprintf_minus8s_eq, scan_spaces_of k _ _ _ (hjk rfl)]
        simp only [stringToken, List.append_assoc]
        exact scan_bare c v _ _ (hbare c (List.mem_cons_self _ _))
          (fun x hx => hbare x (List.mem_cons_of_mem _ hx)) hsep
      rw [drive_token fuel _ _ _ h1 (by simp [stringToken]), hd]
    · simp only [commandLines, hk, Bool.and_eq_true, decide_eq_true_eq] at hc
      obtain ⟨htok, hc2⟩ := hc
      subst htok
      obtain ⟨fuel, hd⟩ := ih true false (pos + (k : Nat) + 1) 0 hc2 (by simp)
      refine ⟨fuel + 1, ?_⟩
      have h1 :
          Next { reader := { pos := pos,
                             reader := List.replicate k 32 ++
                               render newline (newlineToken :: tokens) },
                 err := none, justReadString := j } =
            ((newlineToken, none),
             { reader := { pos := pos + (k : Nat) + 1,
                           reader := List.replicate 0 32 ++ render true tokens },
               err := none, justReadString := false }) := by
        apply Next_of_scan _ _ _ rfl
        simp only
        rw [render_newlineToken, scan_replicate, scan_cons]
        simp
      rw [drive_token fuel _ _ _ h1 (by decide), hd]
    · simp [commandLines, hk] at hc

/-! ## Lemmas on progress -/

theorem nthCall_succ_succ (i : Nat) (t : Tokenizer) :
    nthCall (i + 2) t = nthCall (i + 1) (Next t).2 := rfl

theorem drive_calls (fuel : Nat) :
    ∀ (t : Tokenizer) (tokens : List Token) (e : Option Error),
      drive fuel t = some (tokens, e) →
      tokens.length < fuel ∧
        (∀ (i : Nat) (token : Token), tokens[i]? = some token →
          nthCall (i + 1) t = (token, none)) ∧
        ((e = none ∧ nthCall (tokens.length + 1) t = (eofToken, none)) ∨
          (∃ err, e = some err ∧ nthCall (tokens.length + 1) t = (invalidToken, some err))) := by
  induction fuel with
  | zero => intro t tokens e h; simp [drive] at h
  | succ fuel ih =>
    intro t tokens e h
    rcases hN : Next t with ⟨⟨token, err⟩, t2⟩
    have ho := Next_outcome t
    rw [hN] at ho
    rcases ho with ⟨e2, h1, h2, -⟩ | ⟨h1, h2, -⟩ | ⟨h1, -, -, h4⟩
    · simp only at h1 h2
      subst h1 h2
      rw [drive_error fuel t t2 _ e2 hN] at h
      simp only [Option.some.injEq, Prod.mk.injEq] at h
      obtain ⟨ht, he⟩ := h
      subst ht he
      refine ⟨by simp, by simp, Or.inr ⟨e2, rfl, ?_⟩⟩
      simp [nthCall, afterCalls, hN]
    · simp only at h1 h2
      subst h1 h2
      rw [drive_eof fuel t t2 hN] at h
      simp only [Option.some.injEq, Prod.mk.injEq] at h
      obtain ⟨ht, he⟩ := h
      subst ht he
      refine ⟨by simp, by simp, Or.inl ⟨rfl, ?_⟩⟩
      simp [nthCall, afterCalls, hN]
    · simp only at h1 h4
      subst h1
      have hk : token.kind ≠ Kind.EOF := by
        rcases h4 with ⟨h, -⟩ | ⟨h, -⟩
        · rw [h]; decide
        · rw [h]; decide
      rw [drive_token fuel t t2 token hN hk] at h
      cases hd : drive fuel t2 with
      | none => rw [hd] at h; simp at h
      | some r =>
        obtain ⟨tokens2, e2⟩ := r
        rw [hd] at h
        simp only [Option.some.injEq, Prod.mk.injEq] at h
        obtain ⟨ht, he⟩ := h
        subst ht he
        obtain ⟨i1, i2, i3⟩ := ih t2 tokens2 e2 hd
        have ht2 : (Next t).2 = t2 := by rw [hN]
        refine ⟨by simp only [List.length_cons]; omega, ?_, ?_⟩
        · intro i tk hi
          cases i with
          | zero =>
            simp only [List.getElem?_cons_zero, Option.some.injEq] at hi
            subst hi
            simp [nthCall, afterCalls, hN]
          | succ i =>
            simp only [List.getElem?_cons_succ] at hi
            rw [nthCall_succ_succ, ht2]
            exact i2 i tk hi
        · simp only [List.length_cons]
          rw [nthCall_succ_succ, ht2]
          exact i3

/-! ## Theorems -/

/-- C1: for every byte string `v`, tokenizing a single quote, `q(v)`, a single
quote makes the first call to `Next` return the String token with value `v` and
a nil error, and the second call return the EOF token with a nil error. -/
theorem quoted_string_round_trip (v : List Byte) :
    nthCall 1 (New (39 :: (quoteEscape v ++ [39]))) =
        ({ value := v, kind := Kind.String }, none) ∧
      nthCall 2 (New (39 :: (quoteEscape v ++ [39]))) = (eofToken, none) := by
  have h1 : Next (New (39 :: (quoteEscape v ++ [39]))) =
      (({ value := v, kind := Kind.String }, none),
       { reader := { pos := 0 + 1 + (quoteEscape v).length + 1, reader := [] },
         err := none, justReadString := true }) := by
    simp [Next, New, scan, isUnquotedStringCharacter, readQuoted_quoteEscape]
  constructor
  · simp [nthCall, afterCalls, h1]
  · simp only [nthCall, afterCalls, h1]
    simp [Next, scan]

/-- C2: for every non-empty run `r` of bare-string characters and every input that
is `r` followed by the end of the input, by a space or by a newline (and then
anything), the first call to `Next` returns the String token with value `r`
and leaves the terminator unread; when the terminator is a newline the second
call returns the Newline token. -/
theorem bare_string_verbatim (r tail : List Byte) (hne : r ≠ [])
    (hr : ∀ ch ∈ r, isUnquotedStringCharacter ch = true)
    (ht : tail = [] ∨ ∃ tl, tail = 32 :: tl ∨ tail = 10 :: tl) :
    nthCall 1 (New (r ++ tail)) = ({ value := r, kind := Kind.String }, none) ∧
      (afterCalls 1 (New (r ++ tail))).reader.reader = tail ∧
      (∀ tl, tail = 10 :: tl → nthCall 2 (New (r ++ tail)) = (newlineToken, none)) := by
  have hsep : atSeparator tail = true := by
    rcases ht with h | ⟨tl, h | h⟩ <;> subst h <;> simp [atSeparator]
  obtain ⟨ch, r, rfl⟩ := List.exists_cons_of_ne_nil hne
  have hch : isUnquotedStringCharacter ch = true := hr ch (List.mem_cons_self _ _)
  have hr2 : ∀ c ∈ r, isUnquotedStringCharacter c = true :=
    fun c hc => hr c (List.mem_cons_of_mem _ hc)
  have h1 : Next (New (ch :: r ++ tail)) =
      (({ value := ch :: r, kind := Kind.String }, none),
       { reader := { pos := 0 + (r.length + 1 : Nat), reader := tail }, err := none,
         justReadString := true }) := by
    rw [Next_of_err_none _ rfl]
    simp only [New]
    rw [scan_bare ch r tail 0 hch hr2 hsep]
  refine ⟨?_, ?_, ?_⟩
  · simp only [nthCall, afterCalls, h1]
  · simp only [afterCalls, h1]
  · intro tl htl
    subst htl
    simp only [nthCall, afterCalls, h1]
    rw [Next_of_err_none _ rfl]
    simp [scan_cons]

/-- Witness for C2: the run `foo` before a newline, and the token sequence of
the input `"foo\nbar\nbaz\n"`: String foo, Newline, String bar, Newline,
String baz, Newline, EOF. -/
theorem bare_string_verbatim_witness :
    (nthCall 1 (New (bytes "foo" ++ bytes "\nbar\nbaz\n")) =
        ({ value := bytes "foo", kind := Kind.String }, none) ∧
      (afterCalls 1 (New (bytes "foo" ++ bytes "\nbar\nbaz\n"))).reader.reader =
        bytes "\nbar\nbaz\n" ∧
      (∀ tl, bytes "\nbar\nbaz\n" = 10 :: tl →
        nthCall 2 (New (bytes "foo" ++ bytes "\nbar\nbaz\n")) = (newlineToken, none))) ∧
    (List.range 7).map (fun n => nthCall (n + 1) (New (bytes "foo\nbar\nbaz\n"))) =
      [({ value := bytes "foo", kind := Kind.String }, none), (newlineToken, none),
       ({ value := bytes "bar", kind := Kind.String }, none), (newlineToken, none),
       ({ value := bytes "baz", kind := Kind.String }, none), (newlineToken, none),
       (eofToken, none)] :=
  ⟨bare_string_verbatim (bytes "foo") (bytes "\nbar\nbaz\n") (by decide) (by decide)
      (Or.inr ⟨bytes "bar\nbaz\n", Or.inr (by decide)⟩),
    by decide⟩

/-- C3 fails as stated: the value `"é"` (the two bytes 195, 169, one rune), which
the quoted literal `'é'` gives at the start of a line, is written with seven
spaces after it and not with the six that its length in bytes asks for. -/
theorem command_padding_not_by_bytes :
    onToken true { value := [195, 169], kind := Kind.String } =
        Action.write ([195, 169] ++ List.replicate 7 32) false ∧
      onToken true { value := [195, 169], kind := Kind.String } ≠
        Action.write ([195, 169] ++ List.replicate (8 - [195, 169].length) 32) false ∧
      Run (bytes "'é'") = some ([195, 169] ++ List.replicate 7 32, Exit.success) := by
  decide

/-- C3, amended: for a String token with value `v` at the start of a line the
repairer writes exactly `v` followed by `max(0, 8 - r)` space bytes, where `r` is
the number of runes of `v` as `utf8.RuneCountInString` counts them; `r` is at
most the length `n` of `v` in bytes, and equals `n` when every byte of `v` is
below 0x80, so that such a value of 8 bytes or more is written unchanged. -/
theorem command_padding_by_runes (v : List Byte) :
    onToken true { value := v, kind := Kind.String } =
        Action.write (v ++ List.replicate (8 - RuneCountInString v) 32) false ∧
      RuneCountInString v ≤ v.length ∧
      ((∀ ch ∈ v, ch < 128) → RuneCountInString v = v.length) := by
  refine ⟨?_, runeCountFrom_le v 0, runeCountFrom_ascii v⟩
  simp [onToken, Token.Kind, Token.Value, Sprintf_minus8s_eq]

/-- Witness for C3, amended: the command `set` is written with five spaces after it
and the nine-byte command `smembers1` with none. -/
theorem command_padding_by_runes_witness :
    onToken true { value := bytes "set", kind := Kind.String } =
        Action.write (bytes "set     ") false ∧
      onToken true { value := bytes "smembers1", kind := Kind.String } =
        Action.write (bytes "smembers1") false ∧
      (∀ ch ∈ bytes "set", ch < 128) ∧ RuneCountInString (bytes "set") = 3 :=
  ⟨by decide, by decide, by decide,
    (command_padding_by_runes (bytes "set")).2.2 (by decide)⟩

/-- C4: for every argument value `v`, what the repairer writes for a String token
that is not at the start of a line is a space, a double quote, a region and a
double quote, where the region holds no raw newline, carriage return or null
byte and parses completely as a sequence of plain bytes and escape sequences. -/
theorem escaped_argument_well_formed (v : List Byte) :
    ∃ region : List Byte,
      onToken false { value := v, kind := Kind.String } =
          Action.write ([32, 34] ++ region ++ [34]) false ∧
        10 ∉ region ∧ 13 ∉ region ∧ 0 ∉ region ∧ wellEscaped region = true := by
  refine ⟨escapeValue v, ?_, (not_mem_escapeValue v).1, (not_mem_escapeValue v).2.1,
    (not_mem_escapeValue v).2.2, wellEscaped_escapeValue v⟩
  simp [onToken, Token.Kind, Token.Value, quoteArgument_eq]

/-- C5: for a line made of a bare-string command `c` of at most 8 bytes, then
arguments each written as a bare string or as a quoted string whose value holds
no newline, carriage return, backslash, double quote or null byte, every
argument after a single space, and a newline at the end, the repairer succeeds
and writes `c`, `8 - len(c)` spaces, then for each argument a space, a double
quote, its value and a double quote, and finally the newline. -/
theorem line_rendering (c : List Byte) (args : List Argument) (hne : c ≠ [])
    (hc : ∀ ch ∈ c, isUnquotedStringCharacter ch = true) (hlen : c.length ≤ 8)
    (hargs : ∀ a ∈ args, a.plain = true) :
    Run (c ++ args.flatMap (fun a => 32 :: a.text) ++ [10]) =
      some (c ++ List.replicate (8 - c.length) 32 ++
          args.flatMap (fun a => [32, 34] ++ a.value ++ [34]) ++ [10], Exit.success) := by
  obtain ⟨ch, r, rfl⟩ := List.exists_cons_of_ne_nil hne
  have hs := scan_bare ch r (args.flatMap (fun a => 32 :: a.text) ++ [10]) 0
    (hc ch (List.mem_cons_self _ _)) (fun b hb => hc b (List.mem_cons_of_mem _ hb))
    (atSeparator_arguments args)
  obtain ⟨fuel, hd⟩ := drive_arguments args true (0 + (r.length + 1 : Nat)) hargs
  have h1 : Next (New (ch :: r ++ args.flatMap (fun a => 32 :: a.text) ++ [10])) =
      ((stringToken (ch :: r), none),
       { reader := { pos := 0 + (r.length + 1 : Nat),
                     reader := args.flatMap (fun a => 32 :: a.text) ++ [10] },
         err := none, justReadString := true }) := by
    apply Next_of_scan _ _ _ rfl
    simp only [New, List.append_assoc]
    exact hs
  have ht : tokenize (ch :: r ++ args.flatMap (fun a => 32 :: a.text) ++ [10]) =
      some (stringToken (ch :: r) ::
        (args.map (fun a => stringToken a.value) ++ [newlineToken]), none) := by
    apply tokenize_of_drive (fuel + 1)
    rw [drive_token fuel _ _ _ h1 (by simp [stringToken]), hd]
  have hrune : RuneCountInString (ch :: r) = (ch :: r).length := by
    apply runeCountFrom_ascii
    intro b hb
    exact bare_lt b (hc b hb)
  rw [Run_eq_tokenize, ht]
  simp only [Option.map_some']
  rw [render_String_true (stringToken (ch :: r)) _ rfl, render_arguments args hargs,
    Sprintf_minus8s_eq]
  simp [stringToken, hrune, exitOf]

/-- Witness for C5: the input `"set foo 'bar baz'\n"` gives the output
`"set      \"foo\" \"bar baz\"\n"`. -/
theorem line_rendering_witness :
    Run (bytes "set foo 'bar baz'\n") =
        some (bytes "set      \"foo\" \"bar baz\"\n", Exit.success) ∧
      Run (bytes "set" ++
          [Argument.bare (bytes "foo"), Argument.quoted (bytes "bar baz")].flatMap
            (fun a => 32 :: a.text) ++ [10]) =
        some (bytes "set" ++ List.replicate (8 - (bytes "set").length) 32 ++
          [Argument.bare (bytes "foo"), Argument.quoted (bytes "bar baz")].flatMap
            (fun a => [32, 34] ++ a.value ++ [34]) ++ [10], Exit.success) :=
  ⟨by decide,
    line_rendering (bytes "set") [Argument.bare (bytes "foo"), Argument.quoted (bytes "bar baz")]
      (by decide) (by decide) (by decide) (by decide)⟩

/-- C6 fails as stated: on the input `'\n'` (a quoted string holding a newline byte,
at the start of a line) the repairer succeeds and its output holds one newline
byte, while the tokenizer produced one String token and no Newline token. -/
theorem newline_byte_without_Newline_token :
    Run [39, 10, 39] = some (10 :: List.replicate 7 32, Exit.success) ∧
      tokenize [39, 10, 39] = some ([stringToken [10]], none) ∧
      (10 :: List.replicate 7 32).count 10 = 1 ∧
      newlineTokens [stringToken [10]] = 0 := by
  decide

/-- C6, amended: for every input on which the repairer succeeds, with `tokens` the
tokens that the tokenizer produced, the number of newline bytes in the output is
the number of Newline tokens plus the number of newline bytes in the values of
the String tokens received at the start of a line, which are written raw; when
no such value holds a newline byte, the output has exactly as many newline
bytes as there are Newline tokens. -/
theorem newline_bytes_of_output (input out : List Byte)
    (h : Run input = some (out, Exit.success)) :
    ∃ tokens : List Token,
      tokenize input = some (tokens, none) ∧ out = render true tokens ∧
        out.count 10 =
          newlineTokens tokens + ((commandValues true tokens).map (List.count 10)).sum ∧
        ((∀ v ∈ commandValues true tokens, 10 ∉ v) → out.count 10 = newlineTokens tokens) := by
  rw [Run_eq_tokenize] at h
  cases ht : tokenize input with
  | none => rw [ht] at h; simp at h
  | some r =>
    obtain ⟨tokens, e⟩ := r
    rw [ht] at h
    simp only [Option.map_some', Option.some.injEq, Prod.mk.injEq] at h
    obtain ⟨hout, hexit⟩ := h
    have he : e = none := by
      cases e with
      | none => rfl
      | some e => simp [exitOf] at hexit
    subst he
    have hcount := count_newline_render tokens true (drive_kinds _ _ _ _ ht)
    rw [hout] at hcount
    refine ⟨tokens, rfl, hout.symm, hcount, ?_⟩
    intro hv
    rw [hcount]
    have : ((commandValues true tokens).map (List.count 10)).sum = 0 := by
      apply List.sum_eq_zero
      intro n hn
      obtain ⟨v, hvm, rfl⟩ := List.mem_map.mp hn
      exact List.count_eq_zero.mpr (hv v hvm)
    omega

/-- Witness for C6, amended: the input `"set foo 'a\nb'\n\nget foo"`, with a newline
byte inside an argument, gives two newline bytes for two Newline tokens. -/
theorem newline_bytes_of_output_witness :
    Run (bytes "set foo 'a\nb'\n\nget foo") =
        some (bytes "set      \"foo\" \"a\\nb\"\n\nget      \"foo\"", Exit.success) ∧
      ∃ tokens : List Token,
        tokenize (bytes "set foo 'a\nb'\n\nget foo") = some (tokens, none) ∧
          bytes "set      \"foo\" \"a\\nb\"\n\nget      \"foo\"" = render true tokens ∧
          (bytes "set      \"foo\" \"a\\nb\"\n\nget      \"foo\"").count 10 =
            newlineTokens tokens + ((commandValues true tokens).map (List.count 10)).sum ∧
          ((∀ v ∈ commandValues true tokens, 10 ∉ v) →
            (bytes "set      \"foo\" \"a\\nb\"\n\nget      \"foo\"").count 10 =
              newlineTokens tokens) :=
  ⟨by decide,
    newline_bytes_of_output (bytes "set foo 'a\nb'\n\nget foo")
      (bytes "set      \"foo\" \"a\\nb\"\n\nget      \"foo\"") (by decide)⟩

/-- C7 fails as stated: on the input `"set foo\n"`, made of bare strings, a space
and a newline, the repairer succeeds and writes `set      "foo"` and a newline,
and a fresh tokenizer driven over that output stops, after the String token
`set`, with the error `unexpected character 0x22 at position 9`. -/
theorem retokenize_fails_on_argument :
    Run (bytes "set foo\n") = some (bytes "set      \"foo\"\n", Exit.success) ∧
      tokenize (bytes "set      \"foo\"\n") =
        some ([stringToken (bytes "set")],
          some (Error.Errorf "unexpected character 0x22 at position 9")) := by
  decide

/-- C7, amended: for every input consisting solely of bare-string characters,
spaces and newlines the tokenizer reaches the EOF token without error and the
repairer succeeds; when moreover no line of the input holds more than one
string, so that no argument is written, driving a fresh tokenizer over the
output of the repairer ends with the EOF token and no error. -/
theorem retokenize_output (input : List Byte)
    (ha : ∀ ch ∈ input, isBareInputByte ch = true) :
    ∃ (tokens : List Token) (out : List Byte),
      tokenize input = some (tokens, none) ∧ Run input = some (out, Exit.success) ∧
        (oneStringPerLine true tokens = true →
          ∃ tokens2 : List Token, tokenize out = some (tokens2, none)) := by
  obtain ⟨tokens, ht, hb⟩ := tokenize_bare_input input ha
  refine ⟨tokens, render true tokens, ht, ?_, ?_⟩
  · rw [Run_eq_tokenize, ht]
    rfl
  · intro hone
    obtain ⟨tokens2, h2, -⟩ :=
      tokenize_bare_input (render true tokens) (render_bare_input tokens true hb hone)
    exact ⟨tokens2, h2⟩

/-- Witness for C7, amended: the input `"multi \n\n exec\nsave"` has at most one
string on each line; its output `"multi   \n\nexec    \nsave    "` is tokenized
again up to the EOF token. -/
theorem retokenize_output_witness :
    (∀ ch ∈ bytes "multi \n\n exec\nsave", isBareInputByte ch = true) ∧
      Run (bytes "multi \n\n exec\nsave") =
        some (bytes "multi   \n\nexec    \nsave    ", Exit.success) ∧
      tokenize (bytes "multi \n\n exec\nsave") =
        some ([stringToken (bytes "multi"), newlineToken, newlineToken,
          stringToken (bytes "exec"), newlineToken, stringToken (bytes "save")], none) ∧
      oneStringPerLine true [stringToken (bytes "multi"), newlineToken, newlineToken,
          stringToken (bytes "exec"), newlineToken, stringToken (bytes "save")] = true ∧
      tokenize (bytes "multi   \n\nexec    \nsave    ") =
        some ([stringToken (bytes "multi"), newlineToken, newlineToken,
          stringToken (bytes "exec"), newlineToken, stringToken (bytes "save")], none) ∧
      ∃ (tokens : List Token) (out : List Byte),
        tokenize (bytes "multi \n\n exec\nsave") = some (tokens, none) ∧
          Run (bytes "multi \n\n exec\nsave") = some (out, Exit.success) ∧
          (oneStringPerLine true tokens = true →
            ∃ tokens2 : List Token, tokenize out = some (tokens2, none)) :=
  ⟨by decide, by decide, by decide, by decide, by decide,
    retokenize_output (bytes "multi \n\n exec\nsave") (by decide)⟩

/-- C8: for every input, once a call to `Next` (the call number `k + 1`) has
returned the EOF token with a nil error, every later call returns the Invalid
token with the error `io.EOF`; and once it has returned a non-nil error `e`,
every later call returns the Invalid token with that same `e`; in both cases
the later calls leave the tokenizer, and so the reader, as it was. -/
theorem terminal_condition_absorbing (input : List Byte) (k : Nat) :
    (((nthCall (k + 1) (New input)).1.kind = Kind.EOF ∧
        (nthCall (k + 1) (New input)).2 = none) →
      ∀ m, k + 1 < m →
        nthCall m (New input) = (invalidToken, some Error.EOF) ∧
          afterCalls m (New input) = afterCalls (k + 1) (New input)) ∧
    (∀ e, (nthCall (k + 1) (New input)).2 = some e →
      ∀ m, k + 1 < m →
        nthCall m (New input) = (invalidToken, some e) ∧
          afterCalls m (New input) = afterCalls (k + 1) (New input)) := by
  have key : ∀ e, (afterCalls (k + 1) (New input)).err = some e →
      ∀ m, k + 1 < m →
        nthCall m (New input) = (invalidToken, some e) ∧
          afterCalls m (New input) = afterCalls (k + 1) (New input) := by
    intro e he m hm
    obtain ⟨j, rfl⟩ : ∃ j, m = (k + 1) + j + 1 := ⟨m - (k + 1) - 1, by omega⟩
    constructor
    · rw [nthCall_succ, afterCalls_add, replay_of_err _ e he j]
    · rw [afterCalls_succ, afterCalls_add, replay_of_err _ e he j]
  have ho := Next_outcome (afterCalls k (New input))
  rw [nthCall_succ]
  rcases ho with ⟨e, h1, h2, h3⟩ | ⟨h1, h2, h3⟩ | ⟨h1, h2, h3, h4⟩
  · constructor
    · intro h
      rw [h1] at h
      simp at h
    · intro e2 he2
      rw [h1] at he2
      cases he2
      exact key e (by rw [afterCalls_succ]; exact h3)
  · constructor
    · intro _
      exact key Error.EOF (by rw [afterCalls_succ]; exact h3)
    · intro e he
      rw [h1] at he
      simp at he
  · constructor
    · intro h
      rcases h4 with ⟨h5, -⟩ | ⟨h5, -⟩
      · rw [h5] at h
        simp at h
      · rw [h5] at h
        simp [newlineToken] at h
    · intro e he
      rw [h1] at he
      simp at he

/-- Witness for C8: on the empty input the first call returns the EOF token and
the next three return the Invalid token with `io.EOF`; on the input `"@"` the
first call returns an error and the fourth call returns the same error. -/
theorem terminal_condition_absorbing_witness :
    ((nthCall 1 (New [])).1.kind = Kind.EOF ∧ (nthCall 1 (New [])).2 = none) ∧
      (nthCall 4 (New []) = (invalidToken, some Error.EOF) ∧
        afterCalls 4 (New []) = afterCalls 1 (New [])) ∧
      (nthCall 1 (New (bytes "@"))).2 =
        some (Error.Errorf "unexpected character 0x40 at position 0") ∧
      (nthCall 4 (New (bytes "@")) =
          (invalidToken, some (Error.Errorf "unexpected character 0x40 at position 0")) ∧
        afterCalls 4 (New (bytes "@")) = afterCalls 1 (New (bytes "@"))) :=
  ⟨by decide,
    (terminal_condition_absorbing [] 0).1 (by decide) 4 (by decide),
    by decide,
    (terminal_condition_absorbing (bytes "@") 0).2 _ (by decide) 4 (by decide)⟩

/-- C9: for every input and every `n`, if the calls number `n + 1` and `n + 2`
to `Next` both return String tokens with a nil error, then the bytes left
unread after the first of them are `k` spaces, with `k` at least 1, followed by
the single quote or bare-string character at which the second literal starts,
and the second call reads its literal from there after consuming the spaces. -/
theorem no_adjacent_strings (input : List Byte) (n : Nat)
    (h1 : (nthCall (n + 1) (New input)).1.kind = Kind.String ∧
      (nthCall (n + 1) (New input)).2 = none)
    (h2 : (nthCall (n + 2) (New input)).1.kind = Kind.String ∧
      (nthCall (n + 2) (New input)).2 = none) :
    ∃ (k : Nat) (ch : Byte) (tl : List Byte),
      1 ≤ k ∧
        (afterCalls (n + 1) (New input)).reader.reader = List.replicate k 32 ++ ch :: tl ∧
        (ch = 39 ∨ isUnquotedStringCharacter ch = true) ∧
        Next (afterCalls (n + 1) (New input)) =
          Next { reader := { pos := (afterCalls (n + 1) (New input)).reader.pos + (k : Nat),
                             reader := ch :: tl },
                 err := none, justReadString := false } := by
  have ho := Next_outcome (afterCalls n (New input))
  rw [nthCall_succ] at h1
  rw [nthCall_succ, afterCalls_succ] at h2
  rw [afterCalls_succ]
  generalize Next (afterCalls n (New input)) = r at ho h1 h2 ⊢
  rcases ho with ⟨e, h3, -, -⟩ | ⟨h3, h4, -⟩ | ⟨-, h4, -, h5⟩
  · rw [h3] at h1
    simp at h1
  · rw [h4] at h1
    simp [eofToken] at h1
  · have hj : r.2.justReadString = true := by
      rcases h5 with ⟨-, h⟩ | ⟨h, -⟩
      · exact h
      · rw [h] at h1
        simp [newlineToken] at h1
    have hscan : Next r.2 = scan r.2.justReadString r.2.reader.pos r.2.reader.reader := by
      rw [Next_of_err_none r.2 h4]
      have := h2.2
      rw [Next_of_err_none r.2 h4] at this
      cases hs : (scan r.2.justReadString r.2.reader.pos r.2.reader.reader).1.2 with
      | none => rfl
      | some e =>
        rw [hs] at this
        simp [hs] at this
    rw [hscan] at h2
    obtain ⟨k, ch, tl, hk, hrest, hch, heq⟩ :=
      scan_String_spaces r.2.reader.reader r.2.justReadString r.2.reader.pos h2.1 h2.2
    refine ⟨k, ch, tl, hk hj, hrest, hch, ?_⟩
    rw [hscan, heq]
    have h2b := h2
    rw [heq] at h2b
    rw [Next_of_err_none _ rfl]
    simp only
    rw [h2b.2]

/-- Witness for C9: on the input `"foo  'bar'"` the first two calls return String
tokens, and two spaces stand between the two literals. -/
theorem no_adjacent_strings_witness :
    ((nthCall 1 (New (bytes "foo  'bar'"))).1.kind = Kind.String ∧
        (nthCall 1 (New (bytes "foo  'bar'"))).2 = none) ∧
      (afterCalls 1 (New (bytes "foo  'bar'"))).reader.reader = bytes "  'bar'" ∧
      ∃ (k : Nat) (ch : Byte) (tl : List Byte),
        1 ≤ k ∧
          (afterCalls (0 + 1) (New (bytes "foo  'bar'"))).reader.reader =
            List.replicate k 32 ++ ch :: tl ∧
          (ch = 39 ∨ isUnquotedStringCharacter ch = true) ∧
          Next (afterCalls (0 + 1) (New (bytes "foo  'bar'"))) =
            Next { reader :=
                     { pos := (afterCalls (0 + 1) (New (bytes "foo  'bar'"))).reader.pos +
                         (k : Nat),
                       reader := ch :: tl },
                   err := none, justReadString := false } :=
  ⟨by decide, by decide,
    no_adjacent_strings (bytes "foo  'bar'") 0 (by decide) (by decide)⟩

/-- C10: for every tokenizer about to read, after `k` spaces, a quoted string with
value `v` whose closing quote is immediately followed by a byte `ch` that is a
single quote or a bare-string character (the tokenizer has no stored error, and
`k` is at least 1 when it has just read a string), the call to `Next` returns
the String token `v` with a nil error and the following call returns the Invalid
token with an error whose message is `expected space or newline before string
at position ` followed by a number. -/
theorem missing_separator_after_quoted (t : Tokenizer) (k : Nat) (v tail : List Byte)
    (ch : Byte) (he : t.err = none) (hj : t.justReadString = true → 1 ≤ k)
    (hrest : t.reader.reader =
      List.replicate k 32 ++ 39 :: (quoteEscape v ++ 39 :: ch :: tail))
    (hch : ch = 39 ∨ isUnquotedStringCharacter ch = true) :
    (Next t).1 = (stringToken v, none) ∧
      ∃ p : Int,
        (Next (Next t).2).1 =
          (invalidToken,
            some (Error.Errorf
              ("expected space or newline before string at position " ++ fmtD p))) := by
  have h1 : Next t =
      ((stringToken v, none),
       { reader := { pos := t.reader.pos + (k : Nat) + 1 + (quoteEscape v).length + 1,
                     reader := ch :: tail },
         err := none, justReadString := true }) := by
    apply Next_of_scan t _ _ he
    rw [hrest, scan_spaces_of k _ _ _ hj, scan_quoted]
  rw [h1]
  refine ⟨rfl, ?_⟩
  rw [Next_of_err_none _ rfl]
  simp only
  rw [scan_cons]
  rcases hch with h39 | hb
  · subst h39
    exact ⟨t.reader.pos + (k : Nat) + 1 + (quoteEscape v).length + 1,
      by simp [errMissingSeparator]⟩
  · obtain ⟨h32, h10, h39, -⟩ := bare_ne ch hb
    rw [if_neg h32, if_neg h10, if_neg h39, if_pos hb]
    exact ⟨t.reader.pos + (k : Nat) + 1 + (quoteEscape v).length + 1 + 1,
      by simp [errMissingSeparator]⟩

/-- Witness for C10: the input `"'foo'bar"` gives the String token `foo`, then the
error `expected space or newline before string at position 6`. -/
theorem missing_separator_after_quoted_witness :
    (List.range 2).map (fun n => nthCall (n + 1) (New (bytes "'foo'bar"))) =
        [(stringToken (bytes "foo"), none),
         (invalidToken,
           some (Error.Errorf "expected space or newline before string at position 6"))] ∧
      (Next (New (bytes "'foo'bar"))).1 = (stringToken (bytes "foo"), none) ∧
      ∃ p : Int,
        (Next (Next (New (bytes "'foo'bar"))).2).1 =
          (invalidToken,
            some (Error.Errorf
              ("expected space or newline before string at position " ++ fmtD p))) :=
  ⟨by decide,
    missing_separator_after_quoted (New (bytes "'foo'bar")) 0 (bytes "foo") (bytes "ar") 98
      (by decide) (by decide) (by decide) (by decide)⟩

/-- C11: for every input and every call to `Next` made with no stored error, when
the bytes still unread are `s` spaces, a run `r` of bare-string characters
(empty, or read by this call as a bare string) and a byte `ch` that is not a
bare-string character, a space or a newline, nor a single quote when `r` is
empty, the call returns the Invalid token with the message `unexpected
character 0x<h> at position <k>`, `<h>` being `ch` in lowercase hexadecimal and
`<k>` the 0-indexed offset of `ch` in the input, in decimal. -/
theorem unexpected_character_reported (input : List Byte) (m : Nat)
    (consumed : List Byte) (s : Nat) (r : List Byte) (ch : Byte) (tail : List Byte)
    (hin : input = consumed ++ (List.replicate s 32 ++ (r ++ ch :: tail)))
    (hrest : (afterCalls m (New input)).reader.reader =
      List.replicate s 32 ++ (r ++ ch :: tail))
    (he : (afterCalls m (New input)).err = none)
    (hr : ∀ c ∈ r, isUnquotedStringCharacter c = true)
    (hch : isUnquotedStringCharacter ch = false ∧ ch ≠ 32 ∧ ch ≠ 10)
    (hq : r = [] → ch ≠ 39)
    (hj : r ≠ [] → (afterCalls m (New input)).justReadString = true → 1 ≤ s) :
    nthCall (m + 1) (New input) =
      (invalidToken,
        some (Error.Errorf
          ("unexpected character 0x" ++ String.mk (Nat.toDigits 16 ch) ++ " at position " ++
            toString (consumed.length + s + r.length)))) := by
  have hpos := afterCalls_pos input m consumed _ hin hrest
  have hs := scan_unexpected
    ((afterCalls m (New input)).justReadString && decide (s = 0))
    ((afterCalls m (New input)).reader.pos + (s : Nat)) r ch tail hr hch.1 hch.2.1 hch.2.2 hq
    (by
      intro hne
      cases hjv : (afterCalls m (New input)).justReadString with
      | false => rfl
      | true =>
        have := hj hne hjv
        simp only [Bool.true_and, decide_eq_false_iff_not]
        omega)
  rw [← scan_replicate, ← hrest] at hs
  rw [nthCall_succ]
  rcases hsc : scan (afterCalls m (New input)).justReadString
      (afterCalls m (New input)).reader.pos (afterCalls m (New input)).reader.reader with
    ⟨⟨token, err⟩, t2⟩
  rw [hsc] at hs
  simp only [Prod.mk.injEq] at hs
  obtain ⟨h1, h2⟩ := hs
  subst h1 h2
  rw [Next_error_of_scan _ t2 _ _ he hsc]
  have hk : fmtD ((afterCalls m (New input)).reader.pos + (s : Nat) + (r.length : Nat)) =
      toString (consumed.length + s + r.length) :=
    fmtD_nat _ _ (by rw [hpos]; push_cast; rfl)
  simp only [errUnexpectedCharacter, fmtX, hk]

/-- Witness for C11: on the input `"foo b@r"` the second call meets `@` at offset 5
after the run `b` and returns `unexpected character 0x40 at position 5`. -/
theorem unexpected_character_reported_witness :
    nthCall 2 (New (bytes "foo b@r")) =
      (invalidToken, some (Error.Errorf "unexpected character 0x40 at position 5")) ∧
    nthCall (1 + 1) (New (bytes "foo b@r")) =
      (invalidToken,
        some (Error.Errorf
          ("unexpected character 0x" ++ String.mk (Nat.toDigits 16 64) ++ " at position " ++
            toString ((bytes "foo").length + 1 + (bytes "b").length)))) :=
  ⟨by decide,
    unexpected_character_reported (bytes "foo b@r") 1 (bytes "foo") 1 (bytes "b") 64
      (bytes "r") (by decide) (by decide) (by decide) (by decide) (by decide) (by decide)
      (by decide)⟩

/-- C12: for every input and every call to `Next` made with no stored error, when
the bytes still unread are `s` spaces, a single quote, the written form of some
content, and a backslash followed by a byte that is neither a backslash nor a
single quote, the call returns the Invalid token with the message `unescaped
backslash or invalid escape sequence at position <k>`, `<k>` being the 0-indexed
offset of that backslash in the input. -/
theorem invalid_escape_reported (input : List Byte) (m : Nat)
    (consumed : List Byte) (s : Nat) (v : List Byte) (ch : Byte) (tail : List Byte)
    (hin : input = consumed ++
      (List.replicate s 32 ++ 39 :: (quoteEscape v ++ 92 :: ch :: tail)))
    (hrest : (afterCalls m (New input)).reader.reader =
      List.replicate s 32 ++ 39 :: (quoteEscape v ++ 92 :: ch :: tail))
    (he : (afterCalls m (New input)).err = none)
    (hj : (afterCalls m (New input)).justReadString = true → 1 ≤ s)
    (hch : ch ≠ 92 ∧ ch ≠ 39) :
    nthCall (m + 1) (New input) =
      (invalidToken,
        some (Error.Errorf
          ("unescaped backslash or invalid escape sequence at position " ++
            toString (consumed.length + s + 1 + (quoteEscape v).length)))) := by
  have hpos := afterCalls_pos input m consumed _ hin hrest
  rw [nthCall_succ]
  have hk : fmtD ((afterCalls m (New input)).reader.pos + (s : Nat) + 1 +
      ((quoteEscape v).length : Nat)) =
      toString (consumed.length + s + 1 + (quoteEscape v).length) :=
    fmtD_nat _ _ (by rw [hpos]; push_cast; rfl)
  have hs := scan_invalid_escape ((afterCalls m (New input)).reader.pos + (s : Nat)) v ch tail
    hch.1 hch.2
  rw [← scan_spaces_of s _ _ _ hj, ← hrest] at hs
  rcases hsc : scan (afterCalls m (New input)).justReadString
      (afterCalls m (New input)).reader.pos (afterCalls m (New input)).reader.reader with
    ⟨⟨token, err⟩, t2⟩
  rw [hsc] at hs
  simp only [Prod.mk.injEq] at hs
  obtain ⟨h1, h2⟩ := hs
  subst h1 h2
  rw [Next_error_of_scan _ t2 _ _ he hsc]
  simp only [errInvalidEscape, hk]

/-- Witness for C12: on the input `"foo 'b\ar'"` the second call returns `unescaped
backslash or invalid escape sequence at position 6`. -/
theorem invalid_escape_reported_witness :
    nthCall 2 (New (bytes "foo 'b\\ar'")) =
      (invalidToken,
        some (Error.Errorf "unescaped backslash or invalid escape sequence at position 6")) ∧
    nthCall (1 + 1) (New (bytes "foo 'b\\ar'")) =
      (invalidToken,
        some (Error.Errorf
          ("unescaped backslash or invalid escape sequence at position " ++
            toString ((bytes "foo").length + 1 + 1 + (quoteEscape (bytes "b")).length)))) :=
  ⟨by decide,
    invalid_escape_reported (bytes "foo 'b\\ar'") 1 (bytes "foo") 1 (bytes "b") 97
      (bytes "r'") (by decide) (by decide) (by decide) (by decide) (by decide)⟩

/-- C13: for every tokenizer with no stored error that is about to read, after `s`
spaces (at least one when it has just read a string), a single quote and then the
written form of some content, possibly followed by one backslash, up to the
end of the input, the call to `Next` returns the Invalid token with the error
`io.ErrUnexpectedEOF`, which is neither `io.EOF` nor an error built with
`fmt.Errorf` (unexpected character, invalid escape, missing separator). -/
theorem unterminated_quoted_string (t : Tokenizer) (s : Nat) (v last : List Byte)
    (he : t.err = none) (hj : t.justReadString = true → 1 ≤ s)
    (hrest : t.reader.reader = List.replicate s 32 ++ 39 :: (quoteEscape v ++ last))
    (hlast : last = [] ∨ last = [92]) :
    (Next t).1 = (invalidToken, some Error.ErrUnexpectedEOF) ∧
      Error.ErrUnexpectedEOF ≠ Error.EOF ∧
      (∀ (ch : Byte) (p : Int), Error.ErrUnexpectedEOF ≠ errUnexpectedCharacter ch p) ∧
      (∀ p : Int, Error.ErrUnexpectedEOF ≠ errInvalidEscape p) ∧
      (∀ p : Int, Error.ErrUnexpectedEOF ≠ errMissingSeparator p) := by
  refine ⟨?_, by decide, fun _ _ => by simp [errUnexpectedCharacter],
    fun _ => by simp [errInvalidEscape], fun _ => by simp [errMissingSeparator]⟩
  have hs := scan_unterminated (t.reader.pos + (s : Nat)) v last hlast
  rw [← scan_spaces_of s _ _ _ hj, ← hrest] at hs
  rcases hsc : scan t.justReadString t.reader.pos t.reader.reader with ⟨⟨token, err⟩, t2⟩
  rw [hsc] at hs
  simp only [Prod.mk.injEq] at hs
  obtain ⟨h1, h2⟩ := hs
  subst h1 h2
  exact Next_error_of_scan t t2 _ _ he hsc

/-- Witness for C13: the input `"foo 'bar"` gives the String token `foo`, then the
Invalid token with `io.ErrUnexpectedEOF`. -/
theorem unterminated_quoted_string_witness :
    (List.range 2).map (fun n => nthCall (n + 1) (New (bytes "foo 'bar"))) =
        [(stringToken (bytes "foo"), none), (invalidToken, some Error.ErrUnexpectedEOF)] ∧
      (Next (afterCalls 1 (New (bytes "foo 'bar")))).1 =
        (invalidToken, some Error.ErrUnexpectedEOF) :=
  ⟨by decide,
    (unterminated_quoted_string (afterCalls 1 (New (bytes "foo 'bar"))) 1 (bytes "bar") []
      (by decide) (by decide) (by decide) (by decide)).1⟩

/-- C14 fails as stated: on the input `"foo_:-"` the first call to `Next` returns the
String token whose value is the six bytes `foo_:-`, not `foo`. -/
theorem plain_string_value_is_not_foo :
    nthCall 1 (New (bytes "foo_:-")) = (stringToken (bytes "foo_:-"), none) ∧
      (nthCall 1 (New (bytes "foo_:-"))).1.value ≠ bytes "foo" := by
  decide

/-- C14, amended: on the input `"foo_:-"` (six bytes, no terminator) the first call
to `Next` returns the String token whose value is `foo_:-`, the second call
returns the EOF token, and the third call returns the Invalid token with the
error `io.EOF`. -/
theorem plain_string_calls :
    (List.range 3).map (fun n => nthCall (n + 1) (New (bytes "foo_:-"))) =
      [(stringToken (bytes "foo_:-"), none), (eofToken, none),
       (invalidToken, some Error.EOF)] := by
  decide

/-- C15: for every input and every call to `Next`, the returned token has kind
Invalid if and only if the returned error is non-nil, and a call that returns
a nil error returns a token of kind String, Newline or EOF. -/
theorem invalid_iff_error (input : List Byte) (n : Nat) :
    ((nthCall n (New input)).1.kind = Kind.Invalid ↔ (nthCall n (New input)).2 ≠ none) ∧
      ((nthCall n (New input)).2 = none →
        (nthCall n (New input)).1.kind = Kind.String ∨
          (nthCall n (New input)).1.kind = Kind.Newline ∨
          (nthCall n (New input)).1.kind = Kind.EOF) := by
  have ho := Next_outcome (afterCalls (n - 1) (New input))
  unfold nthCall
  generalize Next (afterCalls (n - 1) (New input)) = r at ho
  rcases ho with ⟨e, h1, h2, -⟩ | ⟨h1, h2, -⟩ | ⟨h1, -, -, h4⟩
  · rw [h1, h2]
    simp [invalidToken]
  · rw [h1, h2]
    simp [eofToken]
  · rw [h1]
    rcases h4 with ⟨h, -⟩ | ⟨h, -⟩
    · rw [h]
      simp
    · rw [h]
      simp [newlineToken]

/-- Witness for C15: the calls on the input `"a @"`: a String token with a nil
error, then the Invalid token with an error, replayed by the third call. -/
theorem invalid_iff_error_witness :
    (List.range 3).map (fun n => nthCall (n + 1) (New (bytes "a @"))) =
        [(stringToken (bytes "a"), none),
         (invalidToken, some (Error.Errorf "unexpected character 0x40 at position 2")),
         (invalidToken, some (Error.Errorf "unexpected character 0x40 at position 2"))] ∧
      (nthCall 1 (New (bytes "a @"))).1.kind = Kind.String ∧
      (nthCall 3 (New (bytes "a @"))).1.kind = Kind.Invalid :=
  ⟨by decide,
    ((invalid_iff_error (bytes "a @") 1).2 (by decide)).resolve_right (by decide),
    (invalid_iff_error (bytes "a @") 3).1.mpr (by decide)⟩

/-- C16: for every token, `Value` panics if and only if the kind of the token is
Invalid or EOF, and otherwise returns the value held; a String token returned by
`Next` gives its string, and a Newline token returned by `Next` gives the
one-byte string `"\n"`. -/
theorem Value_fails_on_valueless_kinds (token : Token) :
    (token.Value = none ↔ token.kind = Kind.Invalid ∨ token.kind = Kind.EOF) ∧
      (token.kind = Kind.String ∨ token.kind = Kind.Newline →
        token.Value = some token.value) ∧
      (∀ t : Tokenizer, (Next t).1.1.kind = Kind.String →
        (Next t).1.1.Value = some (Next t).1.1.value) ∧
      (∀ t : Tokenizer, (Next t).1.1.kind = Kind.Newline →
        (Next t).1.1.Value = some [10]) := by
  refine ⟨?_, ?_, ?_, ?_⟩
  · unfold Token.Value
    split
    · rename_i h
      simp [h]
    · rename_i h
      simp [h]
  · intro h
    unfold Token.Value
    rcases h with h | h <;> simp [h]
  · intro t h
    simp [Token.Value, h]
  · intro t h
    have ho := Next_outcome t
    generalize Next t = r at ho h
    rcases ho with ⟨e, -, h2, -⟩ | ⟨-, h2, -⟩ | ⟨-, -, -, h4⟩
    · rw [h2] at h
      simp [invalidToken] at h
    · rw [h2] at h
      simp [eofToken] at h
    · rcases h4 with ⟨h5, -⟩ | ⟨h5, -⟩
      · rw [h5] at h
        simp at h
      · rw [h5]
        simp [Token.Value, newlineToken]

/-- Witness for C16: `Value` on the four tokens that the calls on `"a\n"` return
(String `a`, Newline, EOF, Invalid). -/
theorem Value_fails_on_valueless_kinds_witness :
    (List.range 4).map (fun n => (nthCall (n + 1) (New (bytes "a\n"))).1.Value) =
        [some (bytes "a"), some [10], none, none] ∧
      newlineToken.Value = some newlineToken.value ∧
      (Next (afterCalls 1 (New (bytes "a\n")))).1.1.Value = some [10] :=
  ⟨by decide,
    (Value_fails_on_valueless_kinds newlineToken).2.1 (Or.inr (by decide)),
    (Value_fails_on_valueless_kinds newlineToken).2.2.2 _ (by decide)⟩

/-- C17: for every input and every call to `Next` that reads, after `s` spaces, a
quoted string whose closing quote is immediately followed, at the 0-indexed
offset `k`, by a byte `ch`: the call returns the String token; when `ch` is a
bare-string character the following call returns `expected space or newline
before string at position <k+1>`, and when `ch` is a single quote it returns
that message with position `<k>`. -/
theorem missing_separator_position (input : List Byte) (m : Nat)
    (consumed : List Byte) (s : Nat) (v : List Byte) (ch : Byte) (tail : List Byte)
    (hin : input = consumed ++
      (List.replicate s 32 ++ 39 :: (quoteEscape v ++ 39 :: ch :: tail)))
    (hrest : (afterCalls m (New input)).reader.reader =
      List.replicate s 32 ++ 39 :: (quoteEscape v ++ 39 :: ch :: tail))
    (he : (afterCalls m (New input)).err = none)
    (hj : (afterCalls m (New input)).justReadString = true → 1 ≤ s) :
    nthCall (m + 1) (New input) = (stringToken v, none) ∧
      (isUnquotedStringCharacter ch = true →
        nthCall (m + 2) (New input) =
          (invalidToken,
            some (Error.Errorf
              ("expected space or newline before string at position " ++
                toString (consumed.length + s + 1 + (quoteEscape v).length + 1 + 1)))) ) ∧
      (ch = 39 →
        nthCall (m + 2) (New input) =
          (invalidToken,
            some (Error.Errorf
              ("expected space or newline before string at position " ++
                toString (consumed.length + s + 1 + (quoteEscape v).length + 1))))) := by
  have hpos := afterCalls_pos input m consumed _ hin hrest
  have h1 := Next_quoted (afterCalls m (New input)) s v (ch :: tail) he hj hrest
  have hk1 : fmtD ((afterCalls m (New input)).reader.pos + (s : Nat) + 1 +
      (quoteEscape v).length + 1 + 1) =
      toString (consumed.length + s + 1 + (quoteEscape v).length + 1 + 1) :=
    fmtD_nat _ _ (by rw [hpos]; push_cast; rfl)
  have hk0 : fmtD ((afterCalls m (New input)).reader.pos + (s : Nat) + 1 +
      (quoteEscape v).length + 1) =
      toString (consumed.length + s + 1 + (quoteEscape v).length + 1) :=
    fmtD_nat _ _ (by rw [hpos]; push_cast; rfl)
  refine ⟨by rw [nthCall_succ, h1], ?_, ?_⟩
  · intro hb
    obtain ⟨h32, h10, h39, -⟩ := bare_ne ch hb
    rw [nthCall_succ, afterCalls_succ, h1, Next_of_err_none _ rfl]
    simp only
    rw [scan_cons, if_neg h32, if_neg h10, if_neg h39, if_pos hb]
    simp only [if_true, errMissingSeparator, hk1]
  · intro h39
    subst h39
    rw [nthCall_succ, afterCalls_succ, h1, Next_of_err_none _ rfl]
    simp only
    rw [scan_cons]
    simp [errMissingSeparator, hk0]

/-- Witness for C17: `"'foo'bar"` reports position 6 for the byte at offset 5, and
`"'foo''bar'"` reports position 5. -/
theorem missing_separator_position_witness :
    nthCall 2 (New (bytes "'foo'bar")) =
        (invalidToken,
          some (Error.Errorf "expected space or newline before string at position 6")) ∧
      nthCall 2 (New (bytes "'foo''bar'")) =
        (invalidToken,
          some (Error.Errorf "expected space or newline before string at position 5")) ∧
      nthCall (0 + 2) (New (bytes "'foo'bar")) =
        (invalidToken,
          some (Error.Errorf
            ("expected space or newline before string at position " ++
              toString (([] : List Byte).length + 0 + 1 +
                (quoteEscape (bytes "foo")).length + 1 + 1)))) ∧
      nthCall (0 + 2) (New (bytes "'foo''bar'")) =
        (invalidToken,
          some (Error.Errorf
            ("expected space or newline before string at position " ++
              toString (([] : List Byte).length + 0 + 1 +
                (quoteEscape (bytes "foo")).length + 1)))) :=
  ⟨by decide, by decide,
    (missing_separator_position (bytes "'foo'bar") 0 [] 0 (bytes "foo") 98 (bytes "ar")
      (by decide) (by decide) (by decide) (by decide)).2.1 (by decide),
    (missing_separator_position (bytes "'foo''bar'") 0 [] 0 (bytes "foo") 39 (bytes "bar'")
      (by decide) (by decide) (by decide) (by decide)).2.2 (by decide)⟩

/-- C18: for every two argument values `v` and `w`, if the repairer writes the same
bytes for both (the substitution table applied to `v` and to `w`, between the
double quotes), then `v = w`; the bytes between the quotes decode back to the
value. -/
theorem output_escaping_injective (v w : List Byte)
    (h : quoteArgument v = quoteArgument w) :
    v = w ∧ unescapeValue (escapeValue v) = v ∧
      quoteArgument v = [32, 34] ++ escapeValue v ++ [34] := by
  refine ⟨?_, unescapeValue_escapeValue v, quoteArgument_eq v⟩
  rw [quoteArgument_eq, quoteArgument_eq] at h
  have h2 : escapeValue v = escapeValue w := by
    simpa using h
  have h3 := congrArg unescapeValue h2
  rwa [unescapeValue_escapeValue, unescapeValue_escapeValue] at h3

/-- Witness for C18: the value made of a newline, a backslash, `n`, a double quote
and a null byte is written as `\n\\n\"\x00` between the quotes, which decodes
back to it. -/
theorem output_escaping_injective_witness :
    quoteArgument [10, 92, 110, 34, 0] = bytes " \"\\n\\\\n\\\"\\x00\"" ∧
      unescapeValue (bytes "\\n\\\\n\\\"\\x00") = [10, 92, 110, 34, 0] ∧
      quoteArgument [10] ≠ quoteArgument [92, 110] ∧
      ([10, 92, 110, 34, 0] : List Byte) = [10, 92, 110, 34, 0] :=
  ⟨by decide, by decide, by decide,
    (output_escaping_injective [10, 92, 110, 34, 0] [10, 92, 110, 34, 0] rfl).1⟩

/-- C19: for every input whose bytes are all bare-string characters or newline
bytes, the repairer succeeds on the input and on its own output, and repairing
the output gives the output back unchanged. -/
theorem repair_idempotent (input : List Byte)
    (h : ∀ ch ∈ input, isUnquotedStringCharacter ch = true ∨ ch = 10) :
    ∃ out : List Byte,
      Run input = some (out, Exit.success) ∧ Run out = some (out, Exit.success) := by
  have ha : ∀ ch ∈ (New input).reader.reader, isLineByte ch = true := by
    intro ch hch
    rcases h ch hch with hb | h10
    · simp [isLineByte, hb]
    · simp [isLineByte, h10]
  obtain ⟨tokens, ht, hc⟩ :=
    drive_lines (input.length + 1) (New input) true rfl ha (by simp [New]) (by simp)
      (by simp [New])
  obtain ⟨fuel, hd⟩ := drive_render tokens true false 0 0 hc (by simp)
  have ht2 : tokenize (render true tokens) = some (tokens, none) := by
    apply tokenize_of_drive fuel
    simpa [New] using hd
  refine ⟨render true tokens, ?_, ?_⟩
  · rw [Run_eq_tokenize, tokenize, ht]
    rfl
  · rw [Run_eq_tokenize, ht2]
    rfl

/-- Witness for C19: the input `"multi\n\nabcdefghij\nexec"` is repaired to
`"multi   \n\nabcdefghij\nexec    "`, which is repaired to itself. -/
theorem repair_idempotent_witness :
    Run (bytes "multi\n\nabcdefghij\nexec") =
        some (bytes "multi   \n\nabcdefghij\nexec    ", Exit.success) ∧
      Run (bytes "multi   \n\nabcdefghij\nexec    ") =
        some (bytes "multi   \n\nabcdefghij\nexec    ", Exit.success) ∧
      ∃ out : List Byte,
        Run (bytes "multi\n\nabcdefghij\nexec") = some (out, Exit.success) ∧
          Run out = some (out, Exit.success) :=
  ⟨by decide, by decide, repair_idempotent (bytes "multi\n\nabcdefghij\nexec") (by decide)⟩

/-- C20: for every input, a call to `Next` that returns a String or Newline token
with a nil error leaves the count of bytes read at least one higher than
before and not above the length of the input; some call among the first
`len(input) + 1` returns the EOF token or an error; and the String and
Newline tokens returned before it, which are the results of the calls before
it, number at most `len(input)`. -/
theorem tokenizer_progress (input : List Byte) :
    (∀ n : Nat,
      (nthCall (n + 1) (New input)).2 = none →
      ((nthCall (n + 1) (New input)).1.kind = Kind.String ∨
        (nthCall (n + 1) (New input)).1.kind = Kind.Newline) →
      (afterCalls n (New input)).reader.pos + 1 ≤ (afterCalls (n + 1) (New input)).reader.pos ∧
        (afterCalls (n + 1) (New input)).reader.pos ≤ input.length) ∧
    (∃ (tokens : List Token) (e : Option Error),
      tokenize input = some (tokens, e) ∧ tokens.length ≤ input.length ∧
        (∀ token ∈ tokens, token.kind = Kind.String ∨ token.kind = Kind.Newline) ∧
        (∀ (i : Nat) (token : Token), tokens[i]? = some token →
          nthCall (i + 1) (New input) = (token, none)) ∧
        (nthCall (tokens.length + 1) (New input) = (eofToken, none) ∨
          (nthCall (tokens.length + 1) (New input)).2 ≠ none)) := by
  constructor
  · intro n he hk
    rw [nthCall_succ] at he hk
    have ho := Next_outcome (afterCalls n (New input))
    have hc := Consumed.length _ _ _ (Next_consumed (afterCalls n (New input)))
    have ha := Consumed.length _ _ _ (afterCalls_consumed input (n + 1))
    rw [afterCalls_succ] at ha ⊢
    generalize Next (afterCalls n (New input)) = r at ho hc ha he hk ⊢
    rcases ho with ⟨e, h1, -, -⟩ | ⟨-, h2, -⟩ | ⟨-, -, h3, -⟩
    · rw [h1] at he
      simp at he
    · rw [h2] at hk
      simp [eofToken] at hk
    · constructor
      · omega
      · omega
  · obtain ⟨⟨tokens, e⟩, ht⟩ := drive_enough (input.length + 1) (New input) (by simp [New])
    obtain ⟨h1, h2, h3⟩ := drive_calls _ _ _ _ ht
    refine ⟨tokens, e, ht, by omega, ?_, h2, ?_⟩
    · intro token hm
      rcases drive_kinds _ _ _ _ ht token hm with h | h
      · exact Or.inl h
      · rw [h]
        exact Or.inr rfl
    · rcases h3 with ⟨-, h⟩ | ⟨err, -, h⟩
      · exact Or.inl h
      · rw [h]
        exact Or.inr (by simp)

/-- Witness for C20: on the seven-byte input `"a 'b'\nc"` the first call returns the
String token `a` and leaves one byte read, and the fifth call returns the EOF
token after four String and Newline tokens. -/
theorem tokenizer_progress_witness :
    (List.range 5).map (fun n => (nthCall (n + 1) (New (bytes "a 'b'\nc")),
        (afterCalls (n + 1) (New (bytes "a 'b'\nc"))).reader.pos)) =
      [((stringToken (bytes "a"), none), 1), ((stringToken (bytes "b"), none), 5),
       ((newlineToken, none), 6), ((stringToken (bytes "c"), none), 7),
       ((eofToken, none), 7)] ∧
    tokenize (bytes "a 'b'\nc") =
      some ([stringToken (bytes "a"), stringToken (bytes "b"), newlineToken,
        stringToken (bytes "c")], none) ∧
    ((afterCalls 0 (New (bytes "a 'b'\nc"))).reader.pos + 1 ≤
        (afterCalls (0 + 1) (New (bytes "a 'b'\nc"))).reader.pos ∧
      (afterCalls (0 + 1) (New (bytes "a 'b'\nc"))).reader.pos ≤
        (bytes "a 'b'\nc").length) :=
  ⟨by decide, by decide,
    (tokenizer_progress (bytes "a 'b'\nc")).1 0 (by decide) (Or.inl (by decide))⟩

end RedisDumpRepair
